import Mathlib

/-!
Verification of the orchestration-and-alignment engine of the OCR-comparison
service.  The Python sources modelled here are `app/services/alignment.py`,
`app/services/comparison.py`, `app/models/schemas.py` and the parts of
`app/api/routes.py` driving the task registry.  The character-level diff is
produced by `difflib.SequenceMatcher(None, reference, comparison)` from the
Python standard library; its algorithm (the Ratcliff/Obershelp-style dynamic
program with the autojunk heuristic, the two non-junk extension loops, the
divide-and-conquer collection of matching blocks, the collapse of adjacent
blocks and the opcode generation) is embedded below.  Texts are modelled as
`List Char`, Python floats as `ℚ` (the arithmetic performed - sums of
lengths, one division, one multiplication by 100 - is exact on the value
ranges reachable by real inputs), Python `None`-able values as `Option`.
-/

namespace OCRSpec

/-! ## Data model (`app/models/schemas.py`) -/

/-- `DiffSegment.segment_type`: the closed set of tags used by
`TextAlignmentService`. -/
inductive SegmentType where
  | «match»
  | minor_diff
  | major_diff
deriving DecidableEq, Repr

/-- `RawOCRResult` from `schemas.py`: one engine's raw output. -/
structure RawOCRResult where
  provider_name : String
  text : List Char
  processing_time : ℚ
  error : Option String
deriving DecidableEq, Repr

/-- `DiffSegment` from `schemas.py`.  `providers_data` is a Python dict from
logical name to contributed slice; it is modelled as an association list in
insertion order (Python dicts preserve insertion order). -/
structure DiffSegment where
  text : List Char
  segment_type : SegmentType
  start_position : Nat
  end_position : Nat
  providers_data : List (String × List Char)
deriving DecidableEq, Repr

/-- `ComparisonResult` from `schemas.py`. -/
structure ComparisonResult where
  provider_name : String
  segments : List DiffSegment
  total_characters : Nat
  match_count : Nat
  diff_count : Nat
  accuracy_percent : ℚ
deriving DecidableEq, Repr

/-- `OCRStatistics` from `schemas.py`. -/
structure OCRStatistics where
  provider_name : String
  total_chars : Nat
  differences : Nat
  accuracy : ℚ
  processing_time : ℚ
deriving DecidableEq, Repr

/-- Python slice `l[i:j]` (for `0 ≤ i`, with Python's clamping of
out-of-range bounds). -/
def pySlice (l : List Char) (i j : Nat) : List Char :=
  (l.drop i).take (j - i)

/-! ## difflib.SequenceMatcher (Python stdlib), as instantiated with
`isjunk=None`, `autojunk=True` by `TextAlignmentService.align_texts` -/

/-- The `b2j`-purge threshold of `__chain_b`: `ntest = n // 100 + 1`. -/
def ntest (b : List Char) : Nat := b.length / 100 + 1

/-- The autojunk "popular element" test of `__chain_b`: an element is purged
from `b2j` when `len(b) >= 200` and it occurs more than `ntest` times in
`b`.  (With `isjunk=None` the junk set `bjunk` is empty, so popularity is
the only purge.) -/
def isPopular (b : List Char) (c : Char) : Bool :=
  decide (200 ≤ b.length) && decide (ntest b < b.count c)

/-- `b2j[c]`: the ascending list of indices of `c` in `b`, empty when `c`
was purged as popular (`__chain_b`). -/
def b2j (b : List Char) (c : Char) : List Nat :=
  if isPopular b c then []
  else (List.range b.length).filter (fun j => decide (b.get? j = some c))

/-- One step of the inner loop of `find_longest_match`: processing index `j`
(an occurrence in `b` of `a[i]`) with the previous row's map `old`
(`j2len`), current row map and current best.  `k = j2len.get(j-1, 0) + 1`
(in Python a lookup at `-1` yields the default `0`, hence the case split on
`j = 0`); the best is replaced when `k > bestsize` by
`(i-k+1, j-k+1, k)`. -/
def innerStep (old : Nat → Nat) (i : Nat)
    (st : (Nat → Nat) × Nat × Nat × Nat) (j : Nat) :
    (Nat → Nat) × Nat × Nat × Nat :=
  let new := st.1
  let bi := st.2.1
  let bj := st.2.2.1
  let bs := st.2.2.2
  let k := (if j = 0 then 0 else old (j - 1)) + 1
  let new' := fun x => if x = j then k else new x
  if bs < k then (new', i + 1 - k, j + 1 - k, k) else (new', bi, bj, bs)

/-- The occurrence list actually processed in row `i`: the Python loop
`for j in b2j.get(a[i], [])` skips `j < blo` (`continue`) and stops at the
first `j >= bhi` (`break`). -/
def rowIndices (a b : List Char) (blo bhi i : Nat) : List Nat :=
  ((b2j b (a.getD i default)).takeWhile (fun j => decide (j < bhi))).filter
    (fun j => decide (blo ≤ j))

/-- One iteration of the outer loop of `find_longest_match` (row `i`): a
fresh `newj2len` is built by folding the processed occurrence list. -/
def rowStep (a b : List Char) (blo bhi : Nat)
    (st : (Nat → Nat) × Nat × Nat × Nat) (i : Nat) :
    (Nat → Nat) × Nat × Nat × Nat :=
  (rowIndices a b blo bhi i).foldl (innerStep st.1 i) ((fun _ => 0), st.2)

/-- The dynamic-programming phase of `find_longest_match`: the outer loop
over `range(alo, ahi)` starting from `besti, bestj, bestsize = alo, blo, 0`
and an empty `j2len`. -/
def dpPhase (a b : List Char) (alo ahi blo bhi : Nat) :
    (Nat → Nat) × Nat × Nat × Nat :=
  (List.range' alo (ahi - alo)).foldl (rowStep a b blo bhi)
    ((fun _ => 0), (alo, blo, 0))

/-- The first extension loop of `find_longest_match`: extend the best block
to the left while the flanking elements are equal.  With `isjunk=None`,
`bjunk` is empty, so the `not isbjunk(...)` guard is vacuously true.  The
loop decrements `besti` on every iteration, so recursion on `bi` is the
loop itself: at `bi = 0` the guard `besti > alo` is false and the loop
exits. -/
def extendLeft (a b : List Char) (alo blo : Nat) :
    Nat → Nat → Nat → Nat × Nat × Nat
  | 0, bj, bs => (0, bj, bs)
  | bi + 1, bj, bs =>
      if alo < bi + 1 ∧ blo < bj ∧ a.get? bi = b.get? (bj - 1) then
        extendLeft a b alo blo bi (bj - 1) (bs + 1)
      else (bi + 1, bj, bs)

/-- The second extension loop of `find_longest_match`: extend the best block
to the right while the flanking elements are equal (again the junk guard is
vacuous; the two remaining loops of the Python source extend over junk
elements only and never fire with `isjunk=None`).  The loop increments
`bestsize` while `besti + bestsize < ahi`, so running it on the exact
counter `ahi - (besti + bestsize)` reproduces it: the counter hits `0`
precisely when `besti + bestsize ≥ ahi`, where the loop guard is false. -/
def extendRightF (a b : List Char) (ahi bhi : Nat) :
    Nat → Nat → Nat → Nat → Nat × Nat × Nat
  | 0, bi, bj, bs => (bi, bj, bs)
  | fuel + 1, bi, bj, bs =>
      if bi + bs < ahi ∧ bj + bs < bhi ∧ a.get? (bi + bs) = b.get? (bj + bs) then
        extendRightF a b ahi bhi fuel bi bj (bs + 1)
      else (bi, bj, bs)

def extendRight (a b : List Char) (ahi bhi bi bj bs : Nat) : Nat × Nat × Nat :=
  extendRightF a b ahi bhi (ahi - (bi + bs)) bi bj bs

/-- `SequenceMatcher.find_longest_match(alo, ahi, blo, bhi)` with
`isjunk=None`: the dynamic program followed by the two live extension
loops. -/
def find_longest_match (a b : List Char) (alo ahi blo bhi : Nat) :
    Nat × Nat × Nat :=
  let best := (dpPhase a b alo ahi blo bhi).2
  let bestL := extendLeft a b alo blo best.1 best.2.1 best.2.2
  extendRight a b ahi bhi bestL.1 bestL.2.1 bestL.2.2

/-! ## Invariants of `find_longest_match` -/

/-- Invariant of a `j2len` row map `f` for row `r`: a nonzero entry at key
`j` describes a common run of length `f j` ending at `a[r]`/`b[j]`, lying
inside the window, and made of non-popular elements of `b`. -/
def JProp (a b : List Char) (alo ahi blo bhi r : Nat) (f : Nat → Nat) : Prop :=
  ∀ j, (f j ≠ 0 → blo ≤ j ∧ j < bhi ∧ f j + blo ≤ j + 1 ∧ f j + alo ≤ r + 1 ∧ r < ahi) ∧
    (∀ t, t < f j → ahi ≤ a.length →
      ∃ c, a.get? (r - t) = some c ∧ b.get? (j - t) = some c ∧
        isPopular b c = false)

/-- The map `old` entering row `i` is either the empty initial map or the
map produced by row `i - 1`. -/
def OldInv (a b : List Char) (alo ahi blo bhi i : Nat) (old : Nat → Nat) : Prop :=
  (∀ x, old x = 0) ∨ (1 ≤ i ∧ JProp a b alo ahi blo bhi (i - 1) old)

/-- Invariant of the running best block `(bi, bj, bs)`: either it is still
the initial `(alo, blo, 0)`, or it is a genuine in-window block whose two
sides agree element-wise. -/
def BProp (a b : List Char) (alo ahi blo bhi bi bj bs : Nat) : Prop :=
  (bi = alo ∧ bj = blo ∧ bs = 0) ∨
  (bs ≠ 0 ∧ alo ≤ bi ∧ bi + bs ≤ ahi ∧ blo ≤ bj ∧ bj + bs ≤ bhi ∧
    ∀ d, d < bs → ahi ≤ a.length → a.get? (bi + d) = b.get? (bj + d))

lemma mem_of_mem_takeWhile {p : Nat → Bool} {l : List Nat} {x : Nat}
    (h : x ∈ l.takeWhile p) : x ∈ l := by
  induction l with
  | nil => simp [List.takeWhile] at h
  | cons hd tl ih =>
    rw [List.takeWhile_cons] at h
    by_cases hp : p hd
    · simp [hp] at h
      rcases h with h | h
      · simp [h]
      · exact List.mem_cons_of_mem _ (ih h)
    · simp [hp] at h

lemma takeWhile_pred {p : Nat → Bool} {l : List Nat} {x : Nat}
    (h : x ∈ l.takeWhile p) : p x = true := by
  induction l with
  | nil => simp [List.takeWhile] at h
  | cons hd tl ih =>
    rw [List.takeWhile_cons] at h
    by_cases hp : p hd
    · simp [hp] at h
      rcases h with h | h
      · rwa [h]
      · exact ih h
    · simp [hp] at h

lemma mem_b2j {b : List Char} {c : Char} {j : Nat} (h : j ∈ b2j b c) :
    isPopular b c = false ∧ j < b.length ∧ b.get? j = some c := by
  unfold b2j at h
  cases hpc : isPopular b c
  · rw [hpc] at h
    simp only [Bool.false_eq_true, if_false, List.mem_filter, List.mem_range,
      decide_eq_true_eq] at h
    exact ⟨rfl, h.1, h.2⟩
  · rw [hpc] at h
    simp at h

lemma mem_rowIndices {a b : List Char} {blo bhi i j : Nat}
    (h : j ∈ rowIndices a b blo bhi i) :
    blo ≤ j ∧ j < bhi ∧ isPopular b (a.getD i default) = false ∧
      j < b.length ∧ b.get? j = some (a.getD i default) := by
  unfold rowIndices at h
  rw [List.mem_filter] at h
  obtain ⟨htw, hblo⟩ := h
  have hmem := mem_of_mem_takeWhile htw
  have hlt := takeWhile_pred htw
  simp only [decide_eq_true_eq] at hlt hblo
  obtain ⟨hpop, hjb, hget⟩ := mem_b2j hmem
  exact ⟨hblo, hlt, hpop, hjb, hget⟩

lemma get?_eq_getD {l : List Char} {n : Nat} (h : n < l.length) :
    l.get? n = some (l.getD n default) := by
  rw [List.getD_eq_get?]
  cases hq : l.get? n with
  | none =>
    rw [List.get?_eq_none] at hq
    omega
  | some c => rfl

lemma JProp_zero (a b : List Char) (alo ahi blo bhi r : Nat) :
    JProp a b alo ahi blo bhi r (fun _ => 0) := by
  intro j
  constructor
  · intro hne; exact absurd rfl hne
  · intro t ht
    exact absurd ht (by simp)

/-- The facts established about the value `k` computed when the inner loop
of `find_longest_match` processes column `j` of row `i`. -/
lemma kFacts (a b : List Char) (alo ahi blo bhi i j : Nat) (old : Nat → Nat)
    (hi : alo ≤ i) (hia : i < ahi)
    (hold : OldInv a b alo ahi blo bhi i old)
    (hj : j ∈ rowIndices a b blo bhi i) :
    blo ≤ j ∧ j < bhi ∧
      ((if j = 0 then 0 else old (j - 1)) + 1) + blo ≤ j + 1 ∧
      ((if j = 0 then 0 else old (j - 1)) + 1) + alo ≤ i + 1 ∧
      (∀ t, t < (if j = 0 then 0 else old (j - 1)) + 1 → ahi ≤ a.length →
        ∃ c, a.get? (i - t) = some c ∧ b.get? (j - t) = some c ∧
          isPopular b c = false) := by
  obtain ⟨hblo, hbhi, hpop, hjb, hget⟩ := mem_rowIndices hj
  have hsound0 : ahi ≤ a.length →
      ∃ c, a.get? (i - 0) = some c ∧ b.get? (j - 0) = some c ∧
        isPopular b c = false := by
    intro ha
    exact ⟨a.getD i default, by simpa using get?_eq_getD (by omega),
      by simpa using hget, hpop⟩
  by_cases hj0 : j = 0
  · have hke : (if j = 0 then 0 else old (j - 1)) = 0 := if_pos hj0
    rw [hke]
    refine ⟨hblo, hbhi, by omega, by omega, ?_⟩
    intro t ht ha
    have ht0 : t = 0 := by omega
    subst ht0
    exact hsound0 ha
  · have hke : (if j = 0 then 0 else old (j - 1)) = old (j - 1) := if_neg hj0
    rw [hke]
    by_cases hm : old (j - 1) = 0
    · rw [hm]
      refine ⟨hblo, hbhi, by omega, by omega, ?_⟩
      intro t ht ha
      have ht0 : t = 0 := by omega
      subst ht0
      exact hsound0 ha
    · rcases hold with hzero | ⟨hi1, hJ⟩
      · exact absurd (hzero (j - 1)) hm
      · obtain ⟨hb1, hb2, hb3, hb4, _⟩ := (hJ (j - 1)).1 hm
        refine ⟨hblo, hbhi, by omega, by omega, ?_⟩
        intro t ht ha
        match t with
        | 0 => exact hsound0 ha
        | Nat.succ t' =>
          obtain ⟨c, hc1, hc2, hc3⟩ := (hJ (j - 1)).2 t' (by omega) ha
          refine ⟨c, ?_, ?_, hc3⟩
          · have : i - 1 - t' = i - (t' + 1) := by omega
            rwa [this] at hc1
          · have : j - 1 - t' = j - (t' + 1) := by omega
            rwa [this] at hc2

/-- `innerStep` preserves the row-map and best-block invariants. -/
lemma innerStep_inv (a b : List Char) (alo ahi blo bhi i j : Nat)
    (old : Nat → Nat) (st : (Nat → Nat) × Nat × Nat × Nat)
    (hi : alo ≤ i) (hia : i < ahi)
    (hold : OldInv a b alo ahi blo bhi i old)
    (hj : j ∈ rowIndices a b blo bhi i)
    (hnew : JProp a b alo ahi blo bhi i st.1)
    (hbest : BProp a b alo ahi blo bhi st.2.1 st.2.2.1 st.2.2.2) :
    JProp a b alo ahi blo bhi i (innerStep old i st j).1 ∧
    BProp a b alo ahi blo bhi (innerStep old i st j).2.1
      (innerStep old i st j).2.2.1 (innerStep old i st j).2.2.2 := by
  obtain ⟨k1, k2, k3, k4, k5⟩ := kFacts a b alo ahi blo bhi i j old hi hia hold hj
  set k := (if j = 0 then 0 else old (j - 1)) + 1 with hk
  have hJ' : JProp a b alo ahi blo bhi i
      (fun x => if x = j then k else st.1 x) := by
    intro x
    by_cases hx : x = j
    · subst hx
      constructor
      · intro _
        simp only [if_pos rfl]
        exact ⟨k1, k2, k3, k4, hia⟩
      · intro t ht ha
        simp only [if_pos rfl] at ht
        exact k5 t ht ha
    · simp only [if_neg hx]
      exact hnew x
  have hk1 : 1 ≤ k := by omega
  have hkle : k + alo ≤ i + 1 := k4
  have hkble : k + blo ≤ j + 1 := k3
  by_cases hlt : st.2.2.2 < k
  · have hres : innerStep old i st j =
        ((fun x => if x = j then k else st.1 x), i + 1 - k, j + 1 - k, k) := by
      simp only [innerStep, ← hk]
      rw [if_pos hlt]
    rw [hres]
    show JProp a b alo ahi blo bhi i (fun x => if x = j then k else st.1 x) ∧
      BProp a b alo ahi blo bhi (i + 1 - k) (j + 1 - k) k
    refine ⟨hJ', Or.inr ?_⟩
    refine ⟨by omega, by omega, by omega, by omega, by omega, ?_⟩
    intro d hd ha
    obtain ⟨c, hc1, hc2, _⟩ := k5 (k - 1 - d) (by omega) ha
    have e1 : i - (k - 1 - d) = i + 1 - k + d := by omega
    have e2 : j - (k - 1 - d) = j + 1 - k + d := by omega
    rw [e1] at hc1
    rw [e2] at hc2
    rw [hc1, hc2]
  · have hres : innerStep old i st j =
        ((fun x => if x = j then k else st.1 x), st.2.1, st.2.2.1, st.2.2.2) := by
      simp only [innerStep, ← hk]
      rw [if_neg hlt]
    rw [hres]
    show JProp a b alo ahi blo bhi i (fun x => if x = j then k else st.1 x) ∧
      BProp a b alo ahi blo bhi st.2.1 st.2.2.1 st.2.2.2
    exact ⟨hJ', hbest⟩

/-- Folding `innerStep` over any sublist of the row's occurrence list
preserves the invariants. -/
lemma foldl_innerStep_inv (a b : List Char) (alo ahi blo bhi i : Nat)
    (old : Nat → Nat)
    (hi : alo ≤ i) (hia : i < ahi)
    (hold : OldInv a b alo ahi blo bhi i old) :
    ∀ (js : List Nat), (∀ j ∈ js, j ∈ rowIndices a b blo bhi i) →
      ∀ st : (Nat → Nat) × Nat × Nat × Nat,
        JProp a b alo ahi blo bhi i st.1 →
        BProp a b alo ahi blo bhi st.2.1 st.2.2.1 st.2.2.2 →
        JProp a b alo ahi blo bhi i (js.foldl (innerStep old i) st).1 ∧
        BProp a b alo ahi blo bhi (js.foldl (innerStep old i) st).2.1
          (js.foldl (innerStep old i) st).2.2.1
          (js.foldl (innerStep old i) st).2.2.2 := by
  intro js
  induction js with
  | nil => intro _ st h1 h2; exact ⟨h1, h2⟩
  | cons hd tl ih =>
    intro hmem st h1 h2
    have hhd := hmem hd (List.mem_cons_self hd tl)
    have hstep := innerStep_inv a b alo ahi blo bhi i hd old st hi hia hold hhd h1 h2
    simp only [List.foldl_cons]
    exact ih (fun j hj => hmem j (List.mem_cons_of_mem hd hj))
      (innerStep old i st hd) hstep.1 hstep.2

/-- `rowStep` turns a valid pre-row state into a valid post-row state. -/
lemma rowStep_inv (a b : List Char) (alo ahi blo bhi i : Nat)
    (st : (Nat → Nat) × Nat × Nat × Nat)
    (hi : alo ≤ i) (hia : i < ahi)
    (hold : OldInv a b alo ahi blo bhi i st.1)
    (hbest : BProp a b alo ahi blo bhi st.2.1 st.2.2.1 st.2.2.2) :
    JProp a b alo ahi blo bhi i (rowStep a b blo bhi st i).1 ∧
    BProp a b alo ahi blo bhi (rowStep a b blo bhi st i).2.1
      (rowStep a b blo bhi st i).2.2.1 (rowStep a b blo bhi st i).2.2.2 := by
  unfold rowStep
  exact foldl_innerStep_inv a b alo ahi blo bhi i st.1 hi hia hold
    (rowIndices a b blo bhi i) (fun _ hj => hj)
    ((fun _ => 0), st.2) (JProp_zero a b alo ahi blo bhi i) hbest

/-- The state after the first `m` rows of the dynamic program is valid. -/
lemma dpPhase_fold (a b : List Char) (alo ahi blo bhi : Nat) :
    ∀ m, m ≤ ahi - alo →
      OldInv a b alo ahi blo bhi (alo + m)
        ((List.range' alo m).foldl (rowStep a b blo bhi)
          ((fun _ => 0), (alo, blo, 0))).1 ∧
      BProp a b alo ahi blo bhi
        ((List.range' alo m).foldl (rowStep a b blo bhi)
          ((fun _ => 0), (alo, blo, 0))).2.1
        ((List.range' alo m).foldl (rowStep a b blo bhi)
          ((fun _ => 0), (alo, blo, 0))).2.2.1
        ((List.range' alo m).foldl (rowStep a b blo bhi)
          ((fun _ => 0), (alo, blo, 0))).2.2.2 := by
  intro m
  induction m with
  | zero =>
    intro _
    exact ⟨Or.inl (fun _ => rfl), Or.inl ⟨rfl, rfl, rfl⟩⟩
  | succ n ih =>
    intro hm
    obtain ⟨ho, hb⟩ := ih (by omega)
    rw [List.range'_concat, List.foldl_append, List.foldl_cons, List.foldl_nil,
      one_mul]
    have hrow := rowStep_inv a b alo ahi blo bhi (alo + n)
      ((List.range' alo n).foldl (rowStep a b blo bhi) ((fun _ => 0), (alo, blo, 0)))
      (by omega) (by omega) ho hb
    constructor
    · exact Or.inr ⟨by omega, by
        have : alo + (n + 1) - 1 = alo + n := by omega
        rw [this]
        exact hrow.1⟩
    · exact hrow.2

/-- The best block produced by the dynamic-programming phase is valid. -/
lemma dpPhase_BProp (a b : List Char) (alo ahi blo bhi : Nat) :
    BProp a b alo ahi blo bhi (dpPhase a b alo ahi blo bhi).2.1
      (dpPhase a b alo ahi blo bhi).2.2.1 (dpPhase a b alo ahi blo bhi).2.2.2 :=
  (dpPhase_fold a b alo ahi blo bhi (ahi - alo) (by omega)).2

/-- The left extension loop preserves the best-block invariant. -/
lemma extendLeft_inv (a b : List Char) (alo ahi blo bhi : Nat) :
    ∀ bi bj bs,
      BProp a b alo ahi blo bhi bi bj bs →
      BProp a b alo ahi blo bhi (extendLeft a b alo blo bi bj bs).1
        (extendLeft a b alo blo bi bj bs).2.1
        (extendLeft a b alo blo bi bj bs).2.2 := by
  intro bi
  induction bi with
  | zero =>
    intro bj bs hb
    exact hb
  | succ n ih =>
    intro bj bs hb
    rw [extendLeft]
    by_cases h : alo < n + 1 ∧ blo < bj ∧ a.get? n = b.get? (bj - 1)
    · rw [if_pos h]
      refine ih (bj - 1) (bs + 1) ?_
      rcases hb with ⟨h1, h2, h3⟩ | ⟨h0, h1, h2, h3, h4, h5⟩
      · omega
      · refine Or.inr ⟨by omega, by omega, by omega, by omega, by omega, ?_⟩
        intro d hd ha
        match d with
        | 0 =>
          simpa using h.2.2
        | Nat.succ d' =>
          have e1 : n + (d' + 1) = (n + 1) + d' := by omega
          have e2 : bj - 1 + (d' + 1) = bj + d' := by omega
          rw [e1, e2]
          exact h5 d' (by omega) ha
    · rw [if_neg h]
      exact hb

/-- The right extension loop preserves the best-block invariant (for any
amount of fuel). -/
lemma extendRightF_inv (a b : List Char) (alo ahi blo bhi : Nat) :
    ∀ fuel bi bj bs,
      BProp a b alo ahi blo bhi bi bj bs →
      BProp a b alo ahi blo bhi (extendRightF a b ahi bhi fuel bi bj bs).1
        (extendRightF a b ahi bhi fuel bi bj bs).2.1
        (extendRightF a b ahi bhi fuel bi bj bs).2.2 := by
  intro fuel
  induction fuel with
  | zero =>
    intro bi bj bs hb
    exact hb
  | succ n ih =>
    intro bi bj bs hb
    rw [extendRightF]
    by_cases h : bi + bs < ahi ∧ bj + bs < bhi ∧ a.get? (bi + bs) = b.get? (bj + bs)
    · rw [if_pos h]
      refine ih bi bj (bs + 1) ?_
      rcases hb with ⟨h1, h2, h3⟩ | ⟨h0, h1, h2, h3, h4, h5⟩
      · subst h1; subst h2; subst h3
        refine Or.inr ⟨by omega, by omega, by omega, by omega, by omega, ?_⟩
        intro d hd ha
        have hd0 : d = 0 := by omega
        subst hd0
        simpa using h.2.2
      · refine Or.inr ⟨by omega, by omega, by omega, by omega, by omega, ?_⟩
        intro d hd ha
        by_cases hdb : d < bs
        · exact h5 d hdb ha
        · have hdb' : d = bs := by omega
          subst hdb'
          exact h.2.2
    · rw [if_neg h]
      exact hb

/-- The result of `find_longest_match` is a valid block: either the trivial
`(alo, blo, 0)` or an in-window block with element-wise equal sides. -/
lemma flm_BProp (a b : List Char) (alo ahi blo bhi : Nat) :
    BProp a b alo ahi blo bhi (find_longest_match a b alo ahi blo bhi).1
      (find_longest_match a b alo ahi blo bhi).2.1
      (find_longest_match a b alo ahi blo bhi).2.2 := by
  unfold find_longest_match extendRight
  have h1 := dpPhase_BProp a b alo ahi blo bhi
  have h2 := extendLeft_inv a b alo ahi blo bhi
    (dpPhase a b alo ahi blo bhi).2.1 (dpPhase a b alo ahi blo bhi).2.2.1
    (dpPhase a b alo ahi blo bhi).2.2.2 h1
  exact extendRightF_inv a b alo ahi blo bhi _ _ _ _ h2

/-- Window bounds of a nonempty `find_longest_match` result. -/
lemma flm_bounds {a b : List Char} {alo ahi blo bhi : Nat}
    (hk : (find_longest_match a b alo ahi blo bhi).2.2 ≠ 0) :
    alo ≤ (find_longest_match a b alo ahi blo bhi).1 ∧
    (find_longest_match a b alo ahi blo bhi).1 +
      (find_longest_match a b alo ahi blo bhi).2.2 ≤ ahi ∧
    blo ≤ (find_longest_match a b alo ahi blo bhi).2.1 ∧
    (find_longest_match a b alo ahi blo bhi).2.1 +
      (find_longest_match a b alo ahi blo bhi).2.2 ≤ bhi := by
  rcases flm_BProp a b alo ahi blo bhi with ⟨h1, h2, h3⟩ | ⟨h0, h1, h2, h3, h4, _⟩
  · exact absurd h3 hk
  · exact ⟨h1, h2, h3, h4⟩

/-- Element-wise agreement of the two sides of a `find_longest_match`
result (for windows inside `a`). -/
lemma flm_sound {a b : List Char} {alo ahi blo bhi : Nat}
    (ha : ahi ≤ a.length) :
    ∀ d, d < (find_longest_match a b alo ahi blo bhi).2.2 →
      a.get? ((find_longest_match a b alo ahi blo bhi).1 + d) =
      b.get? ((find_longest_match a b alo ahi blo bhi).2.1 + d) := by
  intro d hd
  rcases flm_BProp a b alo ahi blo bhi with ⟨h1, h2, h3⟩ | ⟨h0, h1, h2, h3, h4, h5⟩
  · rw [h3] at hd; omega
  · exact h5 d hd ha

/-! ## `get_matching_blocks` and `get_opcodes` -/

/-- The block-collection phase of `get_matching_blocks`.  The Python code
maintains an explicit queue of windows and sorts the collected blocks at the
end; as its own comment notes, the computation "is most naturally expressed
as a recursive algorithm", and since the blocks found in the left sub-window
all precede the found block, which precedes all blocks of the right
sub-window (see `mbr_wf`), the recursive in-order concatenation below equals
the queue-then-sort result.  Every recursive call strictly shrinks
`ahi - alo` (when the found block is nonempty, `flm_bounds` places it inside
the window), so the explicit counter `ahi - alo + 1` supplied by
`matchingBlocksRec` always suffices and the counter-exhausted branch is
never taken from the wrapper. -/
def matchingBlocksRecF (a b : List Char) :
    Nat → Nat → Nat → Nat → Nat → List (Nat × Nat × Nat)
  | 0, _, _, _, _ => []
  | fuel + 1, alo, ahi, blo, bhi =>
    if (find_longest_match a b alo ahi blo bhi).2.2 = 0 then []
    else
      (if alo < (find_longest_match a b alo ahi blo bhi).1 ∧
          blo < (find_longest_match a b alo ahi blo bhi).2.1 then
        matchingBlocksRecF a b fuel alo (find_longest_match a b alo ahi blo bhi).1
          blo (find_longest_match a b alo ahi blo bhi).2.1
      else []) ++ [find_longest_match a b alo ahi blo bhi] ++
      (if (find_longest_match a b alo ahi blo bhi).1 +
          (find_longest_match a b alo ahi blo bhi).2.2 < ahi ∧
          (find_longest_match a b alo ahi blo bhi).2.1 +
          (find_longest_match a b alo ahi blo bhi).2.2 < bhi then
        matchingBlocksRecF a b fuel
          ((find_longest_match a b alo ahi blo bhi).1 +
            (find_longest_match a b alo ahi blo bhi).2.2) ahi
          ((find_longest_match a b alo ahi blo bhi).2.1 +
            (find_longest_match a b alo ahi blo bhi).2.2) bhi
      else [])

def matchingBlocksRec (a b : List Char) (alo ahi blo bhi : Nat) :
    List (Nat × Nat × Nat) :=
  matchingBlocksRecF a b (ahi - alo + 1) alo ahi blo bhi

/-- One step of the adjacency-collapse loop of `get_matching_blocks`: state
is `(non_adjacent, i1, j1, k1)`. -/
def naStep (st : List (Nat × Nat × Nat) × Nat × Nat × Nat)
    (blk : Nat × Nat × Nat) : List (Nat × Nat × Nat) × Nat × Nat × Nat :=
  if st.2.1 + st.2.2.2 = blk.1 ∧ st.2.2.1 + st.2.2.2 = blk.2.1 then
    (st.1, st.2.1, st.2.2.1, st.2.2.2 + blk.2.2)
  else
    ((if st.2.2.2 ≠ 0 then st.1 ++ [(st.2.1, st.2.2.1, st.2.2.2)] else st.1),
      blk.1, blk.2.1, blk.2.2)

/-- The adjacency-collapse loop of `get_matching_blocks`, starting from
`i1 = j1 = k1 = 0`, flushing the final pending block and appending the
sentinel `(la, lb, 0)`. -/
def nonAdjacent (blocks : List (Nat × Nat × Nat)) (la lb : Nat) :
    List (Nat × Nat × Nat) :=
  let p := blocks.foldl naStep ([], 0, 0, 0)
  (if p.2.2.2 ≠ 0 then p.1 ++ [(p.2.1, p.2.2.1, p.2.2.2)] else p.1) ++
    [(la, lb, 0)]

/-- `SequenceMatcher.get_matching_blocks`. -/
def get_matching_blocks (a b : List Char) : List (Nat × Nat × Nat) :=
  nonAdjacent (matchingBlocksRec a b 0 a.length 0 b.length) a.length b.length

/-- The four opcode tags of `get_opcodes`. -/
inductive Tag where
  | equal
  | replace
  | delete
  | insert
deriving DecidableEq, Repr

/-- An opcode `(tag, i1, i2, j1, j2)` of `get_opcodes`. -/
structure Opcode where
  tag : Tag
  i1 : Nat
  i2 : Nat
  j1 : Nat
  j2 : Nat
deriving DecidableEq, Repr

/-- One step of the `get_opcodes` loop: state is `(i, j, answer)`. -/
def opStep (st : Nat × Nat × List Opcode) (blk : Nat × Nat × Nat) :
    Nat × Nat × List Opcode :=
  let gap : List Opcode :=
    if st.1 < blk.1 ∧ st.2.1 < blk.2.1 then
      [⟨Tag.replace, st.1, blk.1, st.2.1, blk.2.1⟩]
    else if st.1 < blk.1 then
      [⟨Tag.delete, st.1, blk.1, st.2.1, blk.2.1⟩]
    else if st.2.1 < blk.2.1 then
      [⟨Tag.insert, st.1, blk.1, st.2.1, blk.2.1⟩]
    else []
  let eqs : List Opcode :=
    if blk.2.2 ≠ 0 then
      [⟨Tag.equal, blk.1, blk.1 + blk.2.2, blk.2.1, blk.2.1 + blk.2.2⟩]
    else []
  (blk.1 + blk.2.2, blk.2.1 + blk.2.2, st.2.2 ++ gap ++ eqs)

/-- `SequenceMatcher.get_opcodes`. -/
def get_opcodes (a b : List Char) : List Opcode :=
  ((get_matching_blocks a b).foldl opStep (0, 0, [])).2.2

/-- Well-formedness of a list of matching blocks relative to a cursor
`(ci, cj)` and window end `(hi, hj)`: blocks are in order, nonempty, within
bounds, and element-wise sound. -/
def BlocksWF (a b : List Char) : Nat → Nat → Nat → Nat →
    List (Nat × Nat × Nat) → Prop
  | _, _, _, _, [] => True
  | ci, cj, hi, hj, blk :: rest =>
      ci ≤ blk.1 ∧ cj ≤ blk.2.1 ∧ blk.2.2 ≠ 0 ∧
      blk.1 + blk.2.2 ≤ hi ∧ blk.2.1 + blk.2.2 ≤ hj ∧
      (∀ d, d < blk.2.2 → a.get? (blk.1 + d) = b.get? (blk.2.1 + d)) ∧
      BlocksWF a b (blk.1 + blk.2.2) (blk.2.1 + blk.2.2) hi hj rest

lemma BlocksWF_weaken (a b : List Char) :
    ∀ l ci cj hi hj ci' cj' hi' hj', BlocksWF a b ci cj hi hj l →
      ci' ≤ ci → cj' ≤ cj → hi ≤ hi' → hj ≤ hj' →
      BlocksWF a b ci' cj' hi' hj' l := by
  intro l
  induction l with
  | nil => intro _ _ _ _ _ _ _ _ _ _ _ _ _; trivial
  | cons blk rest ih =>
    intro ci cj hi hj ci' cj' hi' hj' h h1 h2 h3 h4
    obtain ⟨w1, w2, w3, w4, w5, w6, w7⟩ := h
    exact ⟨by omega, by omega, w3, by omega, by omega, w6,
      ih _ _ _ _ _ _ _ _ w7 (by omega) (by omega) h3 h4⟩

lemma BlocksWF_append (a b : List Char) :
    ∀ l1 l2 ci cj hi hj hi' hj', BlocksWF a b ci cj hi hj l1 →
      BlocksWF a b hi hj hi' hj' l2 →
      ci ≤ hi → cj ≤ hj → hi ≤ hi' → hj ≤ hj' →
      BlocksWF a b ci cj hi' hj' (l1 ++ l2) := by
  intro l1
  induction l1 with
  | nil =>
    intro l2 ci cj hi hj hi' hj' _ h2 hc1 hc2 hh1 hh2
    exact BlocksWF_weaken a b l2 hi hj hi' hj' ci cj hi' hj' h2 hc1 hc2
      (le_refl _) (le_refl _)
  | cons blk rest ih =>
    intro l2 ci cj hi hj hi' hj' h1 h2 hc1 hc2 hh1 hh2
    obtain ⟨w1, w2, w3, w4, w5, w6, w7⟩ := h1
    exact ⟨w1, w2, w3, by omega, by omega, w6,
      ih l2 _ _ hi hj hi' hj' w7 h2 (by omega) (by omega) hh1 hh2⟩

/-- The blocks collected by `matchingBlocksRec` on a window inside `a` form
a well-formed in-order list; in particular the recursive collection is
already sorted, matching the Python queue-then-sort implementation. -/
lemma mbrF_wf (a b : List Char) :
    ∀ fuel alo ahi blo bhi, ahi - alo < fuel → ahi ≤ a.length →
      BlocksWF a b alo blo ahi bhi (matchingBlocksRecF a b fuel alo ahi blo bhi) := by
  intro fuel
  induction fuel with
  | zero =>
    intro alo ahi blo bhi hn ha
    omega
  | succ n ih =>
    intro alo ahi blo bhi hn ha
    rw [matchingBlocksRecF]
    by_cases hk : (find_longest_match a b alo ahi blo bhi).2.2 = 0
    · rw [if_pos hk]; trivial
    · rw [if_neg hk]
      have hb := flm_bounds hk
      have hs := @flm_sound a b alo ahi blo bhi ha
      set m := find_longest_match a b alo ahi blo bhi with hm
      have hright : BlocksWF a b (m.1 + m.2.2) (m.2.1 + m.2.2) ahi bhi
          (if m.1 + m.2.2 < ahi ∧ m.2.1 + m.2.2 < bhi then
            matchingBlocksRecF a b n (m.1 + m.2.2) ahi (m.2.1 + m.2.2) bhi
          else []) := by
        by_cases h2 : m.1 + m.2.2 < ahi ∧ m.2.1 + m.2.2 < bhi
        · rw [if_pos h2]
          exact ih (m.1 + m.2.2) ahi (m.2.1 + m.2.2) bhi (by omega) ha
        · rw [if_neg h2]; trivial
      have hmid : BlocksWF a b m.1 m.2.1 ahi bhi
          ([m] ++ (if m.1 + m.2.2 < ahi ∧ m.2.1 + m.2.2 < bhi then
            matchingBlocksRecF a b n (m.1 + m.2.2) ahi (m.2.1 + m.2.2) bhi
          else [])) := by
        exact ⟨le_refl _, le_refl _, hk, by omega, by omega, hs, hright⟩
      rw [List.append_assoc]
      by_cases h1 : alo < m.1 ∧ blo < m.2.1
      · rw [if_pos h1]
        have hleft := ih alo m.1 blo m.2.1 (by omega) (by omega)
        exact BlocksWF_append a b _ _ alo blo m.1 m.2.1 ahi bhi hleft hmid
          (by omega) (by omega) (by omega) (by omega)
      · rw [if_neg h1]
        rw [List.nil_append]
        exact BlocksWF_weaken a b _ _ _ _ _ _ _ _ _ hmid (by omega) (by omega)
          (le_refl _) (le_refl _)

lemma mbr_wf (a b : List Char) :
    ∀ alo ahi blo bhi, ahi ≤ a.length →
      BlocksWF a b alo blo ahi bhi (matchingBlocksRec a b alo ahi blo bhi) := by
  intro alo ahi blo bhi ha
  exact mbrF_wf a b (ahi - alo + 1) alo ahi blo bhi (by omega) ha

/-- Invariant of the adjacency-collapse fold: the accumulator is a chain
prefix closed under any well-formed continuation after the cursor
`(ei, ej)`, and the pending block `(i1, j1, k1)` follows it and is itself a
sound in-bounds block when nonempty. -/
def NAInv (a b : List Char) (la lb : Nat)
    (st : List (Nat × Nat × Nat) × Nat × Nat × Nat) : Prop :=
  ∃ ei ej, ei ≤ st.2.1 ∧ ej ≤ st.2.2.1 ∧
    (∀ rest, BlocksWF a b ei ej la lb rest →
      BlocksWF a b 0 0 la lb (st.1 ++ rest)) ∧
    (st.2.2.2 ≠ 0 → st.2.1 + st.2.2.2 ≤ la ∧ st.2.2.1 + st.2.2.2 ≤ lb ∧
      ∀ d, d < st.2.2.2 → a.get? (st.2.1 + d) = b.get? (st.2.2.1 + d))

lemma NAInv_mk (a b : List Char) (la lb : Nat) (acc : List (Nat × Nat × Nat))
    (i1 j1 k1 ei ej : Nat) (h1 : ei ≤ i1) (h2 : ej ≤ j1)
    (h3 : ∀ rest, BlocksWF a b ei ej la lb rest →
      BlocksWF a b 0 0 la lb (acc ++ rest))
    (h4 : k1 ≠ 0 → i1 + k1 ≤ la ∧ j1 + k1 ≤ lb ∧
      ∀ d, d < k1 → a.get? (i1 + d) = b.get? (j1 + d)) :
    NAInv a b la lb (acc, i1, j1, k1) :=
  ⟨ei, ej, h1, h2, h3, h4⟩

lemma naFold_inv (a b : List Char) (la lb : Nat) :
    ∀ blocks st ci cj, BlocksWF a b ci cj la lb blocks →
      NAInv a b la lb st →
      st.2.1 + st.2.2.2 ≤ ci → st.2.2.1 + st.2.2.2 ≤ cj →
      NAInv a b la lb (blocks.foldl naStep st) := by
  intro blocks
  induction blocks with
  | nil => intro st ci cj _ hinv _ _; exact hinv
  | cons blk tl ih =>
    intro st ci cj hwf hinv hlink1 hlink2
    obtain ⟨w1, w2, w3, w4, w5, w6, w7⟩ := hwf
    obtain ⟨ei, ej, e1, e2, econt, ek⟩ := hinv
    rw [List.foldl_cons]
    by_cases hadj : st.2.1 + st.2.2.2 = blk.1 ∧ st.2.2.1 + st.2.2.2 = blk.2.1
    · have hstep : naStep st blk = (st.1, st.2.1, st.2.2.1, st.2.2.2 + blk.2.2) := by
        unfold naStep
        rw [if_pos hadj]
      rw [hstep]
      refine ih _ (blk.1 + blk.2.2) (blk.2.1 + blk.2.2) w7 ?_
        (show st.2.1 + (st.2.2.2 + blk.2.2) ≤ blk.1 + blk.2.2 by omega)
        (show st.2.2.1 + (st.2.2.2 + blk.2.2) ≤ blk.2.1 + blk.2.2 by omega)
      refine NAInv_mk a b la lb st.1 st.2.1 st.2.2.1 (st.2.2.2 + blk.2.2)
        ei ej e1 e2 econt ?_
      intro _
      refine ⟨by omega, by omega, ?_⟩
      intro d hd
      by_cases hdk : d < st.2.2.2
      · exact (ek (by omega)).2.2 d hdk
      · have h1 : st.2.1 + d = blk.1 + (d - st.2.2.2) := by omega
        have h2 : st.2.2.1 + d = blk.2.1 + (d - st.2.2.2) := by omega
        rw [h1, h2]
        exact w6 (d - st.2.2.2) (by omega)
    · have hstep : naStep st blk =
          ((if st.2.2.2 ≠ 0 then st.1 ++ [(st.2.1, st.2.2.1, st.2.2.2)] else st.1),
            blk.1, blk.2.1, blk.2.2) := by
        unfold naStep
        rw [if_neg hadj]
      rw [hstep]
      by_cases hk0 : st.2.2.2 ≠ 0
      · rw [if_pos hk0]
        refine ih _ (blk.1 + blk.2.2) (blk.2.1 + blk.2.2) w7 ?_
          (show blk.1 + blk.2.2 ≤ blk.1 + blk.2.2 from le_refl _)
          (show blk.2.1 + blk.2.2 ≤ blk.2.1 + blk.2.2 from le_refl _)
        refine NAInv_mk a b la lb (st.1 ++ [(st.2.1, st.2.2.1, st.2.2.2)])
          blk.1 blk.2.1 blk.2.2 (st.2.1 + st.2.2.2) (st.2.2.1 + st.2.2.2)
          (by omega) (by omega) ?_ ?_
        · intro rest hrest
          rw [List.append_assoc]
          refine econt _ ?_
          obtain ⟨q1, q2, q3⟩ := ek hk0
          exact ⟨e1, e2, hk0, q1, q2, q3, hrest⟩
        · intro _
          exact ⟨w4, w5, w6⟩
      · rw [if_neg hk0]
        have hkz : st.2.2.2 = 0 := by omega
        refine ih _ (blk.1 + blk.2.2) (blk.2.1 + blk.2.2) w7 ?_
          (show blk.1 + blk.2.2 ≤ blk.1 + blk.2.2 from le_refl _)
          (show blk.2.1 + blk.2.2 ≤ blk.2.1 + blk.2.2 from le_refl _)
        refine NAInv_mk a b la lb st.1 blk.1 blk.2.1 blk.2.2 ei ej
          (by omega) (by omega) econt ?_
        intro _
        exact ⟨w4, w5, w6⟩

lemma nonAdjacent_eq (blocks : List (Nat × Nat × Nat)) (la lb : Nat) :
    nonAdjacent blocks la lb =
      (if (blocks.foldl naStep ([], 0, 0, 0)).2.2.2 ≠ 0 then
        (blocks.foldl naStep ([], 0, 0, 0)).1 ++
          [((blocks.foldl naStep ([], 0, 0, 0)).2.1,
            (blocks.foldl naStep ([], 0, 0, 0)).2.2.1,
            (blocks.foldl naStep ([], 0, 0, 0)).2.2.2)]
      else (blocks.foldl naStep ([], 0, 0, 0)).1) ++ [(la, lb, 0)] := rfl

seal find_longest_match matchingBlocksRecF in
/-- `get_matching_blocks` is a well-formed in-order block list followed by
the sentinel `(len a, len b, 0)`. -/
lemma gmb_spec (a b : List Char) :
    ∃ l', get_matching_blocks a b = l' ++ [(a.length, b.length, 0)] ∧
      BlocksWF a b 0 0 a.length b.length l' := by
  have hwf := mbr_wf a b 0 a.length 0 b.length (le_refl _)
  have hinv := naFold_inv a b a.length b.length
    (matchingBlocksRec a b 0 a.length 0 b.length) ([], 0, 0, 0) 0 0 hwf
    (NAInv_mk a b a.length b.length [] 0 0 0 0 0 (le_refl _) (le_refl _)
      (fun _ h => h) (fun h => absurd rfl h))
    (show 0 + 0 ≤ 0 by omega) (show 0 + 0 ≤ 0 by omega)
  obtain ⟨ei, ej, e1, e2, econt, ek⟩ := hinv
  unfold get_matching_blocks
  rw [nonAdjacent_eq]
  set p := (matchingBlocksRec a b 0 a.length 0 b.length).foldl naStep
    ([], 0, 0, 0) with hp
  by_cases hk : p.2.2.2 ≠ 0
  · rw [if_pos hk]
    refine ⟨p.1 ++ [(p.2.1, p.2.2.1, p.2.2.2)], rfl, ?_⟩
    obtain ⟨q1, q2, q3⟩ := ek hk
    exact econt _ ⟨e1, e2, hk, q1, q2, q3, trivial⟩
  · rw [if_neg hk]
    refine ⟨p.1, rfl, ?_⟩
    have := econt [] trivial
    rwa [List.append_nil] at this

/-! ## The opcode chain: `get_opcodes` tiles both texts -/

/-- Per-tag facts of an emitted opcode. -/
def TagOK (a b : List Char) (op : Opcode) : Prop :=
  match op.tag with
  | Tag.equal => op.i1 < op.i2 ∧ op.i2 - op.i1 = op.j2 - op.j1 ∧
      ∀ d, d < op.i2 - op.i1 → a.get? (op.i1 + d) = b.get? (op.j1 + d)
  | Tag.replace => op.i1 < op.i2 ∧ op.j1 < op.j2
  | Tag.delete => op.i1 < op.i2 ∧ op.j1 = op.j2
  | Tag.insert => op.i1 = op.i2 ∧ op.j1 < op.j2

/-- The opcode list tiles `a` from `ci` to `ce` and `b` from `cj` to `cje`:
each opcode starts where the previous one ended, on both sides. -/
def OpChain (a b : List Char) : Nat → Nat → List Opcode → Nat → Nat → Prop
  | ci, cj, [], ce, cje => ce = ci ∧ cje = cj
  | ci, cj, op :: rest, ce, cje =>
      op.i1 = ci ∧ op.j1 = cj ∧ op.i1 ≤ op.i2 ∧ op.j1 ≤ op.j2 ∧
      TagOK a b op ∧ OpChain a b op.i2 op.j2 rest ce cje

lemma OpChain_append (a b : List Char) :
    ∀ l1 l2 ci cj e1 e2 f1 f2, OpChain a b ci cj l1 e1 e2 →
      OpChain a b e1 e2 l2 f1 f2 → OpChain a b ci cj (l1 ++ l2) f1 f2 := by
  intro l1
  induction l1 with
  | nil =>
    intro l2 ci cj e1 e2 f1 f2 h1 h2
    obtain ⟨he1, he2⟩ := h1
    rw [List.nil_append]
    rw [he1, he2] at h2
    exact h2
  | cons op rest ih =>
    intro l2 ci cj e1 e2 f1 f2 h1 h2
    obtain ⟨q1, q2, q3, q4, q5, q6⟩ := h1
    exact ⟨q1, q2, q3, q4, q5, ih l2 _ _ e1 e2 f1 f2 q6 h2⟩

lemma TagOK_replace (a b : List Char) (x1 x2 y1 y2 : Nat)
    (h1 : x1 < x2) (h2 : y1 < y2) :
    TagOK a b ⟨Tag.replace, x1, x2, y1, y2⟩ := ⟨h1, h2⟩

lemma TagOK_delete (a b : List Char) (x1 x2 y1 y2 : Nat)
    (h1 : x1 < x2) (h2 : y1 = y2) :
    TagOK a b ⟨Tag.delete, x1, x2, y1, y2⟩ := ⟨h1, h2⟩

lemma TagOK_insert (a b : List Char) (x1 x2 y1 y2 : Nat)
    (h1 : x1 = x2) (h2 : y1 < y2) :
    TagOK a b ⟨Tag.insert, x1, x2, y1, y2⟩ := ⟨h1, h2⟩

lemma TagOK_equal (a b : List Char) (x1 x2 y1 y2 : Nat)
    (h1 : x1 < x2) (h2 : x2 - x1 = y2 - y1)
    (h3 : ∀ d, d < x2 - x1 → a.get? (x1 + d) = b.get? (y1 + d)) :
    TagOK a b ⟨Tag.equal, x1, x2, y1, y2⟩ := ⟨h1, h2, h3⟩

lemma OpChain_single (a b : List Char) (tg : Tag) (x1 x2 y1 y2 : Nat)
    (h3 : x1 ≤ x2) (h4 : y1 ≤ y2) (h5 : TagOK a b ⟨tg, x1, x2, y1, y2⟩) :
    OpChain a b x1 y1 [⟨tg, x1, x2, y1, y2⟩] x2 y2 :=
  ⟨rfl, rfl, h3, h4, h5, rfl, rfl⟩

/-- The gap opcode (if any) emitted before a block, as a chain from the
cursor to the block start. -/
lemma gap_chain (a b : List Char) (ci cj gi gj : Nat)
    (h1 : ci ≤ gi) (h2 : cj ≤ gj) :
    OpChain a b ci cj
      (if ci < gi ∧ cj < gj then [⟨Tag.replace, ci, gi, cj, gj⟩]
        else if ci < gi then [⟨Tag.delete, ci, gi, cj, gj⟩]
        else if cj < gj then [⟨Tag.insert, ci, gi, cj, gj⟩]
        else []) gi gj := by
  by_cases hc1 : ci < gi ∧ cj < gj
  · rw [if_pos hc1]
    exact OpChain_single a b Tag.replace ci gi cj gj (le_of_lt hc1.1)
      (le_of_lt hc1.2) (TagOK_replace a b ci gi cj gj hc1.1 hc1.2)
  · rw [if_neg hc1]
    by_cases hc2 : ci < gi
    · rw [if_pos hc2]
      have hcj : cj = gj := by omega
      exact OpChain_single a b Tag.delete ci gi cj gj (le_of_lt hc2)
        (by omega) (TagOK_delete a b ci gi cj gj hc2 hcj)
    · rw [if_neg hc2]
      by_cases hc3 : cj < gj
      · rw [if_pos hc3]
        have hci : ci = gi := by omega
        exact hci ▸ OpChain_single a b Tag.insert ci gi cj gj (by omega)
          (le_of_lt hc3) (TagOK_insert a b ci gi cj gj hci hc3)
      · rw [if_neg hc3]
        exact ⟨by omega, by omega⟩

/-- The main loop of `get_opcodes`, applied to a well-formed block list,
produces a tiling opcode chain ending at the final cursor. -/
lemma opFold_spec (a b : List Char) :
    ∀ blocks ci cj acc hi hj, BlocksWF a b ci cj hi hj blocks →
      ci ≤ hi → cj ≤ hj →
      ∃ ops ce cje,
        blocks.foldl opStep (ci, cj, acc) = (ce, cje, acc ++ ops) ∧
        OpChain a b ci cj ops ce cje ∧ ce ≤ hi ∧ cje ≤ hj := by
  intro blocks
  induction blocks with
  | nil =>
    intro ci cj acc hi hj _ h1 h2
    exact ⟨[], ci, cj, by simp, ⟨rfl, rfl⟩, h1, h2⟩
  | cons blk tl ih =>
    intro ci cj acc hi hj hwf h1 h2
    obtain ⟨w1, w2, w3, w4, w5, w6, w7⟩ := hwf
    rw [List.foldl_cons]
    have hstep : opStep (ci, cj, acc) blk =
        (blk.1 + blk.2.2, blk.2.1 + blk.2.2, acc ++
          ((if ci < blk.1 ∧ cj < blk.2.1 then
              [⟨Tag.replace, ci, blk.1, cj, blk.2.1⟩]
            else if ci < blk.1 then [⟨Tag.delete, ci, blk.1, cj, blk.2.1⟩]
            else if cj < blk.2.1 then [⟨Tag.insert, ci, blk.1, cj, blk.2.1⟩]
            else []) ++
          (if blk.2.2 ≠ 0 then
              [⟨Tag.equal, blk.1, blk.1 + blk.2.2, blk.2.1, blk.2.1 + blk.2.2⟩]
            else []))) := by
      show (blk.1 + blk.2.2, blk.2.1 + blk.2.2, acc ++
          (if ci < blk.1 ∧ cj < blk.2.1 then
              [⟨Tag.replace, ci, blk.1, cj, blk.2.1⟩]
            else if ci < blk.1 then [⟨Tag.delete, ci, blk.1, cj, blk.2.1⟩]
            else if cj < blk.2.1 then [⟨Tag.insert, ci, blk.1, cj, blk.2.1⟩]
            else []) ++
          (if blk.2.2 ≠ 0 then
              [⟨Tag.equal, blk.1, blk.1 + blk.2.2, blk.2.1, blk.2.1 + blk.2.2⟩]
            else [])) = _
      rw [List.append_assoc]
    rw [hstep]
    have hgap := gap_chain a b ci cj blk.1 blk.2.1 w1 w2
    have heqs : OpChain a b blk.1 blk.2.1
        (if blk.2.2 ≠ 0 then
            [⟨Tag.equal, blk.1, blk.1 + blk.2.2, blk.2.1, blk.2.1 + blk.2.2⟩]
          else []) (blk.1 + blk.2.2) (blk.2.1 + blk.2.2) := by
      rw [if_pos w3]
      refine OpChain_single a b Tag.equal blk.1 (blk.1 + blk.2.2) blk.2.1
        (blk.2.1 + blk.2.2) (by omega) (by omega)
        (TagOK_equal a b blk.1 (blk.1 + blk.2.2) blk.2.1 (blk.2.1 + blk.2.2)
          (by omega) (by omega) ?_)
      intro d hd
      exact w6 d (by omega)
    obtain ⟨ops', ce, cje, heq, hchain, hce, hcje⟩ :=
      ih (blk.1 + blk.2.2) (blk.2.1 + blk.2.2) (acc ++ _) hi hj w7
        (by omega) (by omega)
    refine ⟨(if ci < blk.1 ∧ cj < blk.2.1 then
          [⟨Tag.replace, ci, blk.1, cj, blk.2.1⟩]
        else if ci < blk.1 then [⟨Tag.delete, ci, blk.1, cj, blk.2.1⟩]
        else if cj < blk.2.1 then [⟨Tag.insert, ci, blk.1, cj, blk.2.1⟩]
        else []) ++
      (if blk.2.2 ≠ 0 then
          [⟨Tag.equal, blk.1, blk.1 + blk.2.2, blk.2.1, blk.2.1 + blk.2.2⟩]
        else []) ++ ops', ce, cje, ?_, ?_, hce, hcje⟩
    · rw [heq]
      rw [List.append_assoc]
    · exact OpChain_append a b _ ops' ci cj (blk.1 + blk.2.2) (blk.2.1 + blk.2.2)
        ce cje (OpChain_append a b _ _ ci cj blk.1 blk.2.1 _ _ hgap heqs) hchain

seal find_longest_match matchingBlocksRecF in
/-- The opcodes of `get_opcodes a b` tile `a` from `0` to `len a` and `b`
from `0` to `len b`. -/
theorem get_opcodes_chain (a b : List Char) :
    OpChain a b 0 0 (get_opcodes a b) a.length b.length := by
  obtain ⟨l', hgmb, hwf⟩ := gmb_spec a b
  unfold get_opcodes
  rw [hgmb, List.foldl_append]
  obtain ⟨ops, ce, cje, heq, hchain, hce, hcje⟩ :=
    opFold_spec a b l' 0 0 [] a.length b.length hwf (by omega) (by omega)
  rw [heq]
  rw [List.foldl_cons, List.foldl_nil]
  have hterm : opStep (ce, cje, [] ++ ops) (a.length, b.length, 0) =
      (a.length + 0, b.length + 0, ([] ++ ops) ++
        ((if ce < a.length ∧ cje < b.length then
            [⟨Tag.replace, ce, a.length, cje, b.length⟩]
          else if ce < a.length then [⟨Tag.delete, ce, a.length, cje, b.length⟩]
          else if cje < b.length then
            [⟨Tag.insert, ce, a.length, cje, b.length⟩]
          else []) ++
          (if (0 : Nat) ≠ 0 then
            [⟨Tag.equal, a.length, a.length + 0, b.length, b.length + 0⟩]
          else []))) := by
    show (a.length + 0, b.length + 0, ([] ++ ops) ++
        (if ce < a.length ∧ cje < b.length then
            [⟨Tag.replace, ce, a.length, cje, b.length⟩]
          else if ce < a.length then [⟨Tag.delete, ce, a.length, cje, b.length⟩]
          else if cje < b.length then
            [⟨Tag.insert, ce, a.length, cje, b.length⟩]
          else []) ++
          (if (0 : Nat) ≠ 0 then
            [⟨Tag.equal, a.length, a.length + 0, b.length, b.length + 0⟩]
          else [])) = _
    rw [List.append_assoc]
  rw [hterm]
  have hgap := gap_chain a b ce cje a.length b.length hce hcje
  show OpChain a b 0 0 (([] ++ ops) ++ (_ ++ _)) a.length b.length
  rw [List.nil_append, if_neg (show ¬((0 : Nat) ≠ 0) by omega), List.append_nil]
  exact OpChain_append a b ops _ 0 0 ce cje a.length b.length hchain hgap
/-! ## Slice and chain utilities -/

lemma pySlice_self (l : List Char) : pySlice l 0 l.length = l := by
  unfold pySlice
  simp

lemma pySlice_empty (l : List Char) (i : Nat) : pySlice l i i = [] := by
  unfold pySlice
  simp

lemma pySlice_append (l : List Char) (i k j : Nat) (h1 : i ≤ k) (h2 : k ≤ j) :
    pySlice l i k ++ pySlice l k j = pySlice l i j := by
  unfold pySlice
  have hd : l.drop k = (l.drop i).drop (k - i) := by
    rw [List.drop_drop]
    congr 1
    omega
  rw [hd]
  have he : j - i = (k - i) + (j - k) := by omega
  rw [he, List.take_add]

lemma pySlice_length (l : List Char) (i j : Nat) (hj : j ≤ l.length)
    (hij : i ≤ j) : (pySlice l i j).length = j - i := by
  unfold pySlice
  rw [List.length_take, List.length_drop]
  omega

lemma pySlice_get? (l : List Char) (i j d : Nat) :
    (pySlice l i j).get? d = if d < j - i then l.get? (i + d) else none := by
  unfold pySlice
  by_cases h : d < j - i
  · rw [if_pos h, List.get?_take h, List.get?_drop]
  · rw [if_neg h]
    apply List.get?_eq_none.mpr
    calc ((l.drop i).take (j - i)).length ≤ j - i := List.length_take_le _ _
    _ ≤ d := by omega

lemma pySlice_congr (a b : List Char) (x1 x2 y1 y2 : Nat)
    (ha : x2 ≤ a.length) (hb : y2 ≤ b.length) (hx : x1 ≤ x2) (hy : y1 ≤ y2)
    (hw : x2 - x1 = y2 - y1)
    (hs : ∀ d, d < x2 - x1 → a.get? (x1 + d) = b.get? (y1 + d)) :
    pySlice a x1 x2 = pySlice b y1 y2 := by
  apply List.ext_get?
  intro d
  rw [pySlice_get?, pySlice_get?]
  by_cases hd : d < x2 - x1
  · rw [if_pos hd, if_pos (by omega)]
    exact hs d hd
  · rw [if_neg hd, if_neg (by omega)]

lemma OpChain_le (a b : List Char) :
    ∀ ops ci cj ce cje, OpChain a b ci cj ops ce cje → ci ≤ ce ∧ cj ≤ cje := by
  intro ops
  induction ops with
  | nil =>
    intro ci cj ce cje h
    obtain ⟨h1, h2⟩ := h
    omega
  | cons op rest ih =>
    intro ci cj ce cje h
    obtain ⟨q1, q2, q3, q4, _, q6⟩ := h
    have := ih op.i2 op.j2 ce cje q6
    omega

/-- Joining the `a`-side slices of an opcode chain yields the `a`-segment
between the chain's endpoints. -/
lemma OpChain_join_a (a b : List Char) :
    ∀ ops ci cj ce cje, OpChain a b ci cj ops ce cje →
      (ops.map (fun op => pySlice a op.i1 op.i2)).join = pySlice a ci ce := by
  intro ops
  induction ops with
  | nil =>
    intro ci cj ce cje h
    obtain ⟨h1, h2⟩ := h
    rw [h1]
    simp [pySlice_empty]
  | cons op rest ih =>
    intro ci cj ce cje h
    obtain ⟨q1, q2, q3, q4, _, q6⟩ := h
    have hrest := ih op.i2 op.j2 ce cje q6
    have hle := OpChain_le a b rest op.i2 op.j2 ce cje q6
    rw [List.map_cons]
    simp only [List.join] at hrest ⊢
    rw [List.join_cons, hrest, ← q1]
    exact pySlice_append a op.i1 op.i2 ce q3 hle.1

/-- Joining the `b`-side slices of an opcode chain yields the `b`-segment
between the chain's endpoints. -/
lemma OpChain_join_b (a b : List Char) :
    ∀ ops ci cj ce cje, OpChain a b ci cj ops ce cje →
      (ops.map (fun op => pySlice b op.j1 op.j2)).join = pySlice b cj cje := by
  intro ops
  induction ops with
  | nil =>
    intro ci cj ce cje h
    obtain ⟨h1, h2⟩ := h
    rw [h2]
    simp [pySlice_empty]
  | cons op rest ih =>
    intro ci cj ce cje h
    obtain ⟨q1, q2, q3, q4, _, q6⟩ := h
    have hrest := ih op.i2 op.j2 ce cje q6
    have hle := OpChain_le a b rest op.i2 op.j2 ce cje q6
    rw [List.map_cons]
    simp only [List.join] at hrest ⊢
    rw [List.join_cons, hrest, ← q2]
    exact pySlice_append b op.j1 op.j2 cje q4 hle.2

/-! ## `TextAlignmentService` (`app/services/alignment.py`) -/

/-- The Python dict literal
`{'reference': refS, provider_name: provS}` of `align_texts` (when the
provider is itself named `"reference"`, the second entry overwrites the
first, as in Python). -/
def mkProvData (name : String) (refS provS : List Char) :
    List (String × List Char) :=
  if name = "reference" then [("reference", provS)]
  else [("reference", refS), (name, provS)]

/-- One iteration of the opcode loop of `align_texts`: state is
`(position, segments)`. -/
def alignStep (reference comparison : List Char) (provider_name : String)
    (st : Nat × List DiffSegment) (op : Opcode) : Nat × List DiffSegment :=
  match op.tag with
  | Tag.equal =>
      let text := pySlice reference op.i1 op.i2
      (st.1 + text.length, st.2 ++
        [⟨text, SegmentType.«match», st.1, st.1 + text.length,
          mkProvData provider_name text (pySlice comparison op.j1 op.j2)⟩])
  | Tag.replace =>
      let ref_text := pySlice reference op.i1 op.i2
      let comp_text := pySlice comparison op.j1 op.j2
      (st.1 + ref_text.length, st.2 ++
        [⟨ref_text, SegmentType.major_diff, st.1, st.1 + ref_text.length,
          mkProvData provider_name ref_text comp_text⟩])
  | Tag.delete =>
      let ref_text := pySlice reference op.i1 op.i2
      (st.1 + ref_text.length, st.2 ++
        [⟨ref_text, SegmentType.minor_diff, st.1, st.1 + ref_text.length,
          mkProvData provider_name ref_text []⟩])
  | Tag.insert =>
      let comp_text := pySlice comparison op.j1 op.j2
      (st.1, st.2 ++
        [⟨[], SegmentType.minor_diff, st.1, st.1,
          mkProvData provider_name [] comp_text⟩])

/-- `TextAlignmentService.align_texts`. -/
def align_texts (reference comparison : List Char) (provider_name : String) :
    List DiffSegment :=
  ((get_opcodes reference comparison).foldl
    (alignStep reference comparison provider_name) (0, [])).2

/-- The segment built from one opcode at a given position (the loop body of
`align_texts`, segment part). -/
def segOf (reference comparison : List Char) (provider_name : String)
    (p : Nat) (op : Opcode) : DiffSegment :=
  match op.tag with
  | Tag.equal =>
      ⟨pySlice reference op.i1 op.i2, SegmentType.«match», p,
        p + (pySlice reference op.i1 op.i2).length,
        mkProvData provider_name (pySlice reference op.i1 op.i2)
          (pySlice comparison op.j1 op.j2)⟩
  | Tag.replace =>
      ⟨pySlice reference op.i1 op.i2, SegmentType.major_diff, p,
        p + (pySlice reference op.i1 op.i2).length,
        mkProvData provider_name (pySlice reference op.i1 op.i2)
          (pySlice comparison op.j1 op.j2)⟩
  | Tag.delete =>
      ⟨pySlice reference op.i1 op.i2, SegmentType.minor_diff, p,
        p + (pySlice reference op.i1 op.i2).length,
        mkProvData provider_name (pySlice reference op.i1 op.i2) []⟩
  | Tag.insert =>
      ⟨[], SegmentType.minor_diff, p, p,
        mkProvData provider_name [] (pySlice comparison op.j1 op.j2)⟩

/-- The segments built from an opcode list starting at a given position;
each opcode's segment starts where the previous one ended. -/
def segsOf (reference comparison : List Char) (provider_name : String) :
    Nat → List Opcode → List DiffSegment
  | _, [] => []
  | p, op :: rest =>
      segOf reference comparison provider_name p op ::
        segsOf reference comparison provider_name
          (segOf reference comparison provider_name p op).end_position rest

lemma alignStep_eq (reference comparison : List Char) (provider_name : String)
    (p : Nat) (acc : List DiffSegment) (op : Opcode) :
    alignStep reference comparison provider_name (p, acc) op =
      ((segOf reference comparison provider_name p op).end_position,
        acc ++ [segOf reference comparison provider_name p op]) := by
  cases op with
  | mk tg x1 x2 y1 y2 => cases tg <;> rfl

lemma alignFold_eq_segsOf (reference comparison : List Char)
    (provider_name : String) :
    ∀ ops p acc,
      ops.foldl (alignStep reference comparison provider_name) (p, acc) =
        ((ops.foldl (alignStep reference comparison provider_name) (p, acc)).1,
          acc ++ segsOf reference comparison provider_name p ops) := by
  intro ops
  induction ops with
  | nil =>
    intro p acc
    rw [List.foldl_nil]
    simp [segsOf]
  | cons op rest ih =>
    intro p acc
    rw [List.foldl_cons, alignStep_eq, ih]
    simp [segsOf]

/-- `align_texts` unrolled: the segment list is `segsOf` from position 0
over the opcodes. -/
lemma align_texts_eq (reference comparison : List Char)
    (provider_name : String) :
    align_texts reference comparison provider_name =
      segsOf reference comparison provider_name 0
        (get_opcodes reference comparison) := by
  unfold align_texts
  rw [alignFold_eq_segsOf]
  simp

/-- `TextAlignmentService.calculate_accuracy`: returns
`(match_count, diff_count, accuracy_percent)`. -/
def calculate_accuracy (segments : List DiffSegment) (total_chars : Nat) :
    Nat × Nat × ℚ :=
  let md := segments.foldl
    (fun (md : Nat × Nat) seg =>
      if seg.segment_type = SegmentType.«match» then
        (md.1 + seg.text.length, md.2)
      else (md.1, md.2 + seg.text.length)) (0, 0)
  (md.1, md.2, if total_chars = 0 then 0 else (md.1 : ℚ) / (total_chars : ℚ) * 100)

/-- `TextAlignmentService.find_consensus_text`: the longest non-empty text
(Python `max(texts, key=len)` keeps the first of several longest). -/
def find_consensus_text (results : List RawOCRResult) : List Char :=
  if results = [] then []
  else
    match (results.map (fun r => r.text)).filter (fun t => decide (t ≠ [])) with
    | [] => []
    | t :: rest =>
        rest.foldl (fun best x => if best.length < x.length then x else best) t

/-- `TextAlignmentService.create_comparison_results`: one `ComparisonResult`
per raw result (errored ones included, with their empty text), all aligned
against the shared consensus reference; `calculate_accuracy` is called with
the reference length. -/
def create_comparison_results (raw_results : List RawOCRResult) :
    List ComparisonResult :=
  if raw_results = [] then []
  else
    let reference := find_consensus_text raw_results
    raw_results.map (fun result =>
      let provider_segments :=
        align_texts reference result.text result.provider_name
      let acc := calculate_accuracy provider_segments reference.length
      { provider_name := result.provider_name
        segments := provider_segments
        total_characters := result.text.length
        match_count := acc.1
        diff_count := acc.2.1
        accuracy_percent := acc.2.2 })

/-- Python's `str.split('\n')` on a character list (`''.split('\n') == ['']`,
no collapsing of empty pieces). -/
def splitNl : List Char → List (List Char)
  | [] => [[]]
  | c :: rest =>
      if c = '\n' then [] :: splitNl rest
      else
        match splitNl rest with
        | [] => [[c]]
        | l :: ls => (c :: l) :: ls

/-- Python dict insertion `d[k] = v`: overwrite in place, else append
(insertion order preserved). -/
def dictInsert (d : List (String × List Char)) (k0 : String) (v : List Char) :
    List (String × List Char) :=
  match d with
  | [] => [(k0, v)]
  | (k1, v1) :: rest =>
      if k1 = k0 then (k1, v) :: rest else (k1, v1) :: dictInsert rest k0 v

/-- The body of the inner `for result in all_results` loop of
`merge_multiple_alignments`: state is `(providers_data, all_equal)`. -/
def mergeStep (ref_line : List Char) (line_idx : Nat)
    (st : List (String × List Char) × Bool) (result : RawOCRResult) :
    List (String × List Char) × Bool :=
  let text_lines := splitNl result.text
  let comp_line :=
    if line_idx < text_lines.length then text_lines.getD line_idx []
    else []
  (dictInsert st.1 result.provider_name comp_line,
    st.2 && decide (comp_line = ref_line))

/-- The merged segment built by `merge_multiple_alignments` for one
reference line. -/
def mergeLine (all_results : List RawOCRResult) (ref_line : List Char)
    (line_idx : Nat) : DiffSegment :=
  let st := all_results.foldl (mergeStep ref_line line_idx)
    ([("reference", ref_line)], true)
  let unique_versions := (st.1.map (fun p => p.2)).dedup.length
  let segment_type :=
    if st.2 = true ∨ unique_versions = 1 then SegmentType.«match»
    else if unique_versions ≤ 2 then SegmentType.minor_diff
    else SegmentType.major_diff
  ⟨ref_line, segment_type, line_idx, line_idx + 1, st.1⟩

/-- `TextAlignmentService.merge_multiple_alignments`: line-level merged
segments, one per reference line (`enumerate(ref_lines)` pairs each line
index with the line at that index). -/
def merge_multiple_alignments (reference : List Char)
    (all_results : List RawOCRResult) : List DiffSegment :=
  (List.range (splitNl reference).length).map
    (fun line_idx => mergeLine all_results ((splitNl reference).getD line_idx []) line_idx)

/-! ## `OCRComparisonService` (`app/services/comparison.py`) -/

/-- A recognition provider as the orchestration engine sees it for one
document: its registered name and the outcome of `await provider.process`,
which either returns `(text, processing_time)` or raises an exception
carrying a message. -/
structure Provider where
  provider_name : String
  outcome : Except String (List Char × ℚ)

/-- `OCRComparisonService._run_single_ocr`: wraps one provider call,
converting success into a `RawOCRResult` and any exception into a
`RawOCRResult` with `text=""`, `processing_time=0` and `error` set. -/
def run_single_ocr (p : Provider) : RawOCRResult :=
  match p.outcome with
  | Except.ok r => ⟨p.provider_name, r.1, r.2, none⟩
  | Except.error e => ⟨p.provider_name, [], 0, some e⟩

/-- `OCRComparisonService._run_all_ocr`: `asyncio.gather` over the
registered providers; `gather` returns results positionally in task order
(registration order) regardless of completion order, and
`_run_single_ocr` already absorbs every per-engine exception, so the
`isinstance(result, Exception)` branch only re-wraps what is already a
per-engine failure. -/
def run_all_ocr (providers : List Provider) : List RawOCRResult :=
  providers.map run_single_ocr

/-- Task lifecycle states of the task registry. -/
inductive TaskStatus where
  | pending
  | processing
  | completed
  | failed
deriving DecidableEq, Repr

/-- `ComparisonResponse` from `schemas.py` (the fields the core computes;
`html_visualization` is rendering-layer plumbing and stays `none`). -/
structure ComparisonResponse where
  task_id : String
  filename : String
  raw_results : List RawOCRResult
  comparison : List ComparisonResult
  statistics : List OCRStatistics
deriving DecidableEq, Repr

/-- One record of the in-memory task store `self.tasks`. -/
structure TaskRecord where
  status : TaskStatus
  filename : String
  result : Option ComparisonResponse
  error : Option String
deriving DecidableEq, Repr

/-- The dict lookup `comparison_map.get(name)` of `_generate_statistics`,
where `comparison_map = {cr.provider_name: cr for cr in comparison_results}`
(on duplicate names the last entry wins, hence the reversed search). -/
def comparison_map_get (comparison_results : List ComparisonResult)
    (nm : String) : Option ComparisonResult :=
  comparison_results.reverse.find? (fun cr => decide (cr.provider_name = nm))

/-- `OCRComparisonService._generate_statistics`. -/
def generate_statistics (raw_results : List RawOCRResult)
    (comparison_results : List ComparisonResult) : List OCRStatistics :=
  raw_results.map (fun raw =>
    match comparison_map_get comparison_results raw.provider_name with
    | some comp =>
        { provider_name := raw.provider_name
          total_chars := comp.total_characters
          differences := comp.diff_count
          accuracy := comp.accuracy_percent
          processing_time := raw.processing_time }
    | none =>
        { provider_name := raw.provider_name
          total_chars := 0
          differences := 0
          accuracy := 0
          processing_time := raw.processing_time })

/-- `OCRComparisonService.process_document` together with the enclosing
`background_process` of `routes.py`: the task record is created in state
`processing`; the `try` block (steps 1-3: `_run_all_ocr`, alignment,
statistics) either completes, storing the full response, or raises, in
which case the `except` clause records `failed` with the message and no
result; `background_process` swallows the re-raised exception.  The shallow
embedding passes the try-block's outcome explicitly: `ok raws` means the
fan-out returned `raws` and the pure steps ran; `error e` is any exception
escaping the per-engine isolation (including one inside the alignment
computation). -/
def process_document (task_id filename : String)
    (outcome : Except String (List RawOCRResult)) : TaskRecord :=
  match outcome with
  | Except.ok raws =>
      let comparison_results := create_comparison_results raws
      let statistics := generate_statistics raws comparison_results
      { status := TaskStatus.completed
        filename := filename
        result := some ⟨task_id, filename, raws, comparison_results, statistics⟩
        error := none }
  | Except.error e =>
      { status := TaskStatus.failed
        filename := filename
        result := none
        error := some e }

/-! ## Segment-level consequences of the opcode chain -/

/-- Lookup in a `providers_data` association list (Python `dict[k]`). -/
def lookupPD (d : List (String × List Char)) (k0 : String) : List Char :=
  match d.find? (fun pr => decide (pr.1 = k0)) with
  | some pr => pr.2
  | none => []

lemma lookupPD_mk (name : String) (x y : List Char) :
    lookupPD (mkProvData name x y) name = y := by
  unfold lookupPD mkProvData
  by_cases h : name = "reference"
  · subst h
    simp [List.find?]
  · rw [if_neg h]
    have h1 : (decide (("reference", x).1 = name)) = false := by
      simp
      exact fun hc => h hc.symm
    rw [List.find?]
    rw [h1]
    rw [List.find?]
    simp [List.find?]

lemma lookupPD_mk_ref (name : String) (x y : List Char)
    (h : name ≠ "reference") :
    lookupPD (mkProvData name x y) "reference" = x := by
  unfold lookupPD mkProvData
  rw [if_neg h]
  simp [List.find?]

lemma segOf_start (r c : List Char) (n : String) (p : Nat) (op : Opcode) :
    (segOf r c n p op).start_position = p := by
  cases op with
  | mk tg x1 x2 y1 y2 => cases tg <;> rfl

lemma segOf_end (r c : List Char) (n : String) (p : Nat) (op : Opcode) :
    (segOf r c n p op).end_position =
      p + (segOf r c n p op).text.length := by
  cases op with
  | mk tg x1 x2 y1 y2 => cases tg <;> simp [segOf]

lemma segOf_text_eq (r c : List Char) (n : String) (p : Nat) (op : Opcode)
    (hok : TagOK r c op) :
    (segOf r c n p op).text = pySlice r op.i1 op.i2 := by
  cases op with
  | mk tg x1 x2 y1 y2 =>
    cases tg
    · rfl
    · rfl
    · rfl
    · show ([] : List Char) = pySlice r x1 x2
      obtain ⟨h1, _⟩ := hok
      simp only [] at h1
      rw [h1, pySlice_empty]

lemma segOf_name_eq (r c : List Char) (n : String) (p : Nat) (op : Opcode)
    (hok : TagOK r c op) :
    lookupPD (segOf r c n p op).providers_data n = pySlice c op.j1 op.j2 := by
  cases op with
  | mk tg x1 x2 y1 y2 =>
    cases tg
    · exact lookupPD_mk n _ _
    · exact lookupPD_mk n _ _
    · show lookupPD (mkProvData n (pySlice r x1 x2) []) n = pySlice c y1 y2
      obtain ⟨_, h2⟩ := hok
      simp only [] at h2
      rw [lookupPD_mk, h2, pySlice_empty]
    · exact lookupPD_mk n _ _

lemma segsOf_texts (r c : List Char) (n : String) :
    ∀ ops p ci cj ce cje, OpChain r c ci cj ops ce cje →
      (segsOf r c n p ops).map (fun s => s.text) =
        ops.map (fun op => pySlice r op.i1 op.i2) := by
  intro ops
  induction ops with
  | nil => intro p ci cj ce cje _; rfl
  | cons op rest ih =>
    intro p ci cj ce cje h
    obtain ⟨q1, q2, q3, q4, q5, q6⟩ := h
    show (segOf r c n p op).text ::
        (segsOf r c n (segOf r c n p op).end_position rest).map (fun s => s.text) =
      pySlice r op.i1 op.i2 :: rest.map (fun op => pySlice r op.i1 op.i2)
    rw [segOf_text_eq r c n p op q5,
      ih (segOf r c n p op).end_position op.i2 op.j2 ce cje q6]

lemma segsOf_names (r c : List Char) (n : String) :
    ∀ ops p ci cj ce cje, OpChain r c ci cj ops ce cje →
      (segsOf r c n p ops).map (fun s => lookupPD s.providers_data n) =
        ops.map (fun op => pySlice c op.j1 op.j2) := by
  intro ops
  induction ops with
  | nil => intro p ci cj ce cje _; rfl
  | cons op rest ih =>
    intro p ci cj ce cje h
    obtain ⟨q1, q2, q3, q4, q5, q6⟩ := h
    show lookupPD (segOf r c n p op).providers_data n ::
        (segsOf r c n (segOf r c n p op).end_position rest).map
          (fun s => lookupPD s.providers_data n) =
      pySlice c op.j1 op.j2 :: rest.map (fun op => pySlice c op.j1 op.j2)
    rw [segOf_name_eq r c n p op q5,
      ih (segOf r c n p op).end_position op.i2 op.j2 ce cje q6]

seal find_longest_match matchingBlocksRecF in
/-- Concatenating the segment texts of `align_texts` restores the reference
text. -/
lemma align_texts_join (r c : List Char) (n : String) :
    (((align_texts r c n).map (fun s => s.text))).join = r := by
  rw [align_texts_eq,
    segsOf_texts r c n (get_opcodes r c) 0 0 0 r.length c.length
      (get_opcodes_chain r c),
    OpChain_join_a r c (get_opcodes r c) 0 0 r.length c.length
      (get_opcodes_chain r c),
    pySlice_self]

seal find_longest_match matchingBlocksRecF in
/-- Concatenating the candidate-side `providers_data` entries of
`align_texts` restores the candidate text. -/
lemma align_texts_join_name (r c : List Char) (n : String) :
    (((align_texts r c n).map (fun s => lookupPD s.providers_data n))).join
      = c := by
  rw [align_texts_eq,
    segsOf_names r c n (get_opcodes r c) 0 0 0 r.length c.length
      (get_opcodes_chain r c),
    OpChain_join_b r c (get_opcodes r c) 0 0 r.length c.length
      (get_opcodes_chain r c),
    pySlice_self]

lemma segsOf_pos (r c : List Char) (n : String) :
    ∀ ops p k seg, (segsOf r c n p ops).get? k = some seg →
      seg.start_position =
        p + (((segsOf r c n p ops).take k).map (fun s => s.text.length)).sum ∧
      seg.end_position = seg.start_position + seg.text.length := by
  intro ops
  induction ops with
  | nil =>
    intro p k seg h
    simp [segsOf] at h
  | cons op rest ih =>
    intro p k seg h
    cases k with
    | zero =>
      have hseg : segOf r c n p op = seg := by
        have h0 : (segOf r c n p op ::
            segsOf r c n (segOf r c n p op).end_position rest).get? 0 =
              some seg := h
        simpa using h0
      subst hseg
      constructor
      · rw [segOf_start]
        simp
      · rw [segOf_end, segOf_start]
    | succ k' =>
      have h' : (segsOf r c n (segOf r c n p op).end_position rest).get? k' =
          some seg := h
      obtain ⟨hs, he⟩ := ih (segOf r c n p op).end_position k' seg h'
      refine ⟨?_, he⟩
      rw [show segsOf r c n p (op :: rest) = segOf r c n p op ::
        segsOf r c n (segOf r c n p op).end_position rest from rfl]
      rw [List.take_cons, List.map_cons, List.sum_cons]
      simp only [Nat.add_sub_cancel]
      rw [hs, segOf_end]
      omega
      omega

lemma calc_fold_sum (segs : List DiffSegment) :
    ∀ m0 d0 : Nat,
      (segs.foldl (fun (md : Nat × Nat) seg =>
        if seg.segment_type = SegmentType.«match» then
          (md.1 + seg.text.length, md.2)
        else (md.1, md.2 + seg.text.length)) (m0, d0)).1 +
      (segs.foldl (fun (md : Nat × Nat) seg =>
        if seg.segment_type = SegmentType.«match» then
          (md.1 + seg.text.length, md.2)
        else (md.1, md.2 + seg.text.length)) (m0, d0)).2 =
      m0 + d0 + (segs.map (fun s => s.text.length)).sum := by
  induction segs with
  | nil => intro m0 d0; simp
  | cons seg rest ih =>
    intro m0 d0
    rw [List.foldl_cons]
    by_cases h : seg.segment_type = SegmentType.«match»
    · rw [if_pos h]
      have eq1 : ((m0, d0).1 + seg.text.length, (m0, d0).2) =
          (m0 + seg.text.length, d0) := rfl
      rw [eq1, ih (m0 + seg.text.length) d0, List.map_cons, List.sum_cons]
      omega
    · rw [if_neg h]
      have eq1 : ((m0, d0).1, (m0, d0).2 + seg.text.length) =
          (m0, d0 + seg.text.length) := rfl
      rw [eq1, ih m0 (d0 + seg.text.length), List.map_cons, List.sum_cons]
      omega

/-- `match_count + diff_count` equals the total segment-text length. -/
lemma calculate_accuracy_sum (segs : List DiffSegment) (tc : Nat) :
    (calculate_accuracy segs tc).1 + (calculate_accuracy segs tc).2.1 =
      (segs.map (fun s => s.text.length)).sum := by
  have := calc_fold_sum segs 0 0
  simpa [calculate_accuracy] using this

/-- The accuracy component of `calculate_accuracy` is the guarded ratio. -/
lemma calculate_accuracy_acc (segs : List DiffSegment) (tc : Nat) :
    (calculate_accuracy segs tc).2.2 =
      if tc = 0 then 0
      else ((calculate_accuracy segs tc).1 : ℚ) / (tc : ℚ) * 100 := rfl

/-- For every candidate, `match_count + diff_count` over the segments of
`align_texts` equals the reference length. -/
lemma align_match_diff (r c : List Char) (n : String) :
    (calculate_accuracy (align_texts r c n) r.length).1 +
      (calculate_accuracy (align_texts r c n) r.length).2.1 = r.length := by
  rw [calculate_accuracy_sum]
  have hjoin := align_texts_join r c n
  have hlen : (((align_texts r c n).map (fun s => s.text)).join).length =
      r.length := by rw [hjoin]
  rw [List.length_join, List.map_map] at hlen
  exact hlen

/-! ## Further consequences used by the claims -/

lemma OpChain_mem_facts (a b : List Char) :
    ∀ ops ci cj ce cje, OpChain a b ci cj ops ce cje →
      ∀ op ∈ ops, TagOK a b op ∧ op.i1 ≤ op.i2 ∧ op.j1 ≤ op.j2 ∧
        op.i2 ≤ ce ∧ op.j2 ≤ cje := by
  intro ops
  induction ops with
  | nil => intro ci cj ce cje _ op hop; simp at hop
  | cons op0 rest ih =>
    intro ci cj ce cje h op hop
    obtain ⟨q1, q2, q3, q4, q5, q6⟩ := h
    have hle := OpChain_le a b rest op0.i2 op0.j2 ce cje q6
    rcases List.mem_cons.mp hop with heq | hmem
    · subst heq
      exact ⟨q5, q3, q4, hle.1, hle.2⟩
    · exact ih op0.i2 op0.j2 ce cje q6 op hmem

lemma OpChain_stationary_b (a b : List Char) :
    ∀ ops ci cj ce cje, OpChain a b ci cj ops ce cje → cje = cj →
      ∀ op ∈ ops, op.j1 = op.j2 := by
  intro ops
  induction ops with
  | nil => intro ci cj ce cje _ _ op hop; simp at hop
  | cons op0 rest ih =>
    intro ci cj ce cje h hstat op hop
    obtain ⟨q1, q2, q3, q4, q5, q6⟩ := h
    have hle := OpChain_le a b rest op0.i2 op0.j2 ce cje q6
    rcases List.mem_cons.mp hop with heq | hmem
    · subst heq
      omega
    · refine ih op0.i2 op0.j2 ce cje q6 (by omega) op hmem

/-- `get_opcodes` of two empty texts is empty. -/
lemma get_opcodes_nil : get_opcodes [] [] = [] := by
  have h := get_opcodes_chain [] []
  cases hop : get_opcodes ([] : List Char) ([] : List Char) with
  | nil => rfl
  | cons op rest =>
    rw [hop] at h
    obtain ⟨q1, q2, q3, q4, q5, q6⟩ := h
    have hle := OpChain_le ([] : List Char) ([] : List Char) rest op.i2 op.j2 _ _ q6
    simp only [List.length_nil] at hle
    cases htag : op.tag <;> simp only [TagOK, htag] at q5
    · obtain ⟨w1, -, -⟩ := q5
      omega
    · obtain ⟨w1, w2⟩ := q5
      omega
    · obtain ⟨w1, w2⟩ := q5
      omega
    · obtain ⟨w1, w2⟩ := q5
      omega

lemma calc_match_component (segs : List DiffSegment) :
    ∀ m0 d0 : Nat, (∀ s ∈ segs, s.segment_type ≠ SegmentType.«match») →
      (segs.foldl (fun (md : Nat × Nat) seg =>
        if seg.segment_type = SegmentType.«match» then
          (md.1 + seg.text.length, md.2)
        else (md.1, md.2 + seg.text.length)) (m0, d0)).1 = m0 := by
  induction segs with
  | nil => intro m0 d0 _; rfl
  | cons seg rest ih =>
    intro m0 d0 h
    rw [List.foldl_cons]
    rw [if_neg (h seg (List.mem_cons_self seg rest))]
    have eq1 : ((m0, d0).1, (m0, d0).2 + seg.text.length) =
        (m0, d0 + seg.text.length) := rfl
    rw [eq1]
    exact ih m0 (d0 + seg.text.length)
      (fun s hs => h s (List.mem_cons_of_mem seg hs))

lemma segsOf_mem_type (r c : List Char) (n : String) :
    ∀ ops p seg, seg ∈ segsOf r c n p ops →
      ∃ q op, op ∈ ops ∧ seg = segOf r c n q op := by
  intro ops
  induction ops with
  | nil => intro p seg h; simp [segsOf] at h
  | cons op rest ih =>
    intro p seg h
    rw [show segsOf r c n p (op :: rest) = segOf r c n p op ::
      segsOf r c n (segOf r c n p op).end_position rest from rfl] at h
    rcases List.mem_cons.mp h with heq | hmem
    · exact ⟨p, op, List.mem_cons_self op rest, heq⟩
    · obtain ⟨q, op', hop', hseg⟩ := ih _ seg hmem
      exact ⟨q, op', List.mem_cons_of_mem op hop', hseg⟩

seal find_longest_match matchingBlocksRecF in
/-- Aligning the empty candidate against a reference yields no matches:
`match_count = 0`, `diff_count = length reference`, accuracy `0`. -/
lemma align_nil_candidate (r : List Char) (n : String) :
    calculate_accuracy (align_texts r [] n) r.length = (0, r.length, 0) := by
  have hchain := get_opcodes_chain r []
  have hstat := OpChain_stationary_b r [] (get_opcodes r []) 0 0 r.length
    ([] : List Char).length hchain (by simp)
  have hnomatch : ∀ s ∈ align_texts r [] n,
      s.segment_type ≠ SegmentType.«match» := by
    intro s hs
    rw [align_texts_eq] at hs
    obtain ⟨q, op, hop, hseg⟩ := segsOf_mem_type r [] n (get_opcodes r []) 0 s hs
    have hfacts := OpChain_mem_facts r [] (get_opcodes r []) 0 0 r.length
      ([] : List Char).length hchain op hop
    have hj := hstat op hop
    subst hseg
    obtain ⟨hok, hle1, hle2, hle3, hle4⟩ := hfacts
    cases htag : op.tag <;> simp only [TagOK, htag] at hok <;>
      simp only [segOf, htag]
    · obtain ⟨w1, w2, -⟩ := hok
      omega
    · intro hcon
      exact SegmentType.noConfusion hcon
    · intro hcon
      exact SegmentType.noConfusion hcon
    · intro hcon
      exact SegmentType.noConfusion hcon
  have hm : (calculate_accuracy (align_texts r [] n) r.length).1 = 0 := by
    unfold calculate_accuracy
    exact calc_match_component (align_texts r [] n) 0 0 hnomatch
  have hmd := align_match_diff r [] n
  have hd : (calculate_accuracy (align_texts r [] n) r.length).2.1 = r.length := by
    omega
  have hacc := calculate_accuracy_acc (align_texts r [] n) r.length
  rw [hm] at hacc
  have hacc0 : (calculate_accuracy (align_texts r [] n) r.length).2.2 = 0 := by
    rw [hacc]
    by_cases h0 : r.length = 0
    · rw [if_pos h0]
    · rw [if_neg h0]
      simp
  exact Prod.ext hm (Prod.ext hd hacc0)

lemma dictInsert_fresh (d : List (String × List Char)) (k0 : String)
    (v : List Char) (h : ∀ pr ∈ d, pr.1 ≠ k0) :
    dictInsert d k0 v = d ++ [(k0, v)] := by
  induction d with
  | nil => rfl
  | cons pr rest ih =>
    rw [dictInsert]
    rw [if_neg (h pr (List.mem_cons_self pr rest))]
    rw [ih (fun x hx => h x (List.mem_cons_of_mem pr hx))]
    rfl

lemma find?_reverse_unique :
    ∀ (l : List ComparisonResult) (nm : String) (cr : ComparisonResult),
      (l.map (fun x => x.provider_name)).Nodup → cr ∈ l →
      cr.provider_name = nm →
      l.reverse.find? (fun x => decide (x.provider_name = nm)) = some cr := by
  intro l
  induction l with
  | nil => intro nm cr _ hmem _; simp at hmem
  | cons x rest ih =>
    intro nm cr hnodup hmem hname
    rw [List.map_cons, List.nodup_cons] at hnodup
    rw [List.reverse_cons, List.find?_append]
    rcases List.mem_cons.mp hmem with heq | hmem'
    · subst heq
      have hnone : rest.reverse.find?
          (fun y => decide (y.provider_name = nm)) = none := by
        rw [List.find?_eq_none]
        intro y hy
        simp only [decide_eq_true_eq]
        intro hc
        apply hnodup.1
        rw [List.mem_map]
        refine ⟨y, List.mem_reverse.mp hy, ?_⟩
        rw [hc, hname]
      rw [hnone]
      simp [List.find?, hname]
    · have := ih nm cr hnodup.2 hmem' hname
      rw [this]
      rfl

/-- The per-result line used by `merge_multiple_alignments` at a given line
index. -/
def lineAt (line_idx : Nat) (res : RawOCRResult) : List Char :=
  if line_idx < (splitNl res.text).length then (splitNl res.text).getD line_idx []
  else []

lemma mergeFold (ref_line : List Char) (line_idx : Nat) :
    ∀ (results : List RawOCRResult) (d : List (String × List Char)) (ae : Bool),
      (∀ res ∈ results, ∀ pr ∈ d, pr.1 ≠ res.provider_name) →
      (results.map (fun r => r.provider_name)).Nodup →
      results.foldl (mergeStep ref_line line_idx) (d, ae) =
      (d ++ results.map (fun res => (res.provider_name, lineAt line_idx res)),
        ae && results.all (fun res => decide (lineAt line_idx res = ref_line))) := by
  intro results
  induction results with
  | nil =>
    intro d ae _ _
    simp
  | cons res rest ih =>
    intro d ae hfresh hnodup
    rw [List.map_cons, List.nodup_cons] at hnodup
    rw [List.foldl_cons]
    show List.foldl (mergeStep ref_line line_idx)
      (dictInsert d res.provider_name (lineAt line_idx res),
        ae && decide (lineAt line_idx res = ref_line)) rest = _
    rw [dictInsert_fresh d res.provider_name (lineAt line_idx res)
      (fun pr hpr => hfresh res (List.mem_cons_self res rest) pr hpr)]
    rw [ih (d ++ [(res.provider_name, lineAt line_idx res)])
      (ae && decide (lineAt line_idx res = ref_line)) ?_ hnodup.2]
    · rw [List.append_assoc]
      simp only [List.singleton_append, List.map_cons, List.all_cons,
        Bool.and_assoc]
    · intro r hr pr hpr
      rcases List.mem_append.mp hpr with hd | hone
      · exact hfresh r (List.mem_cons_of_mem res hr) pr hd
      · have : pr = (res.provider_name, lineAt line_idx res) := by
          simpa using hone
        subst this
        show res.provider_name ≠ r.provider_name
        intro hc
        apply hnodup.1
        rw [List.mem_map]
        exact ⟨r, hr, hc.symm⟩

/-- The Python `max(texts, key=len)` fold keeps the first text of maximal
length. -/
lemma foldMax_spec :
    ∀ (rest : List (List Char)) (t : List Char),
      (rest.foldl (fun best x => if best.length < x.length then x else best) t)
        ∈ t :: rest ∧
      (∀ x ∈ t :: rest, x.length ≤
        (rest.foldl (fun best x => if best.length < x.length then x else best) t).length) ∧
      ((t :: rest).find? (fun x => decide (x.length =
        (rest.foldl (fun best x => if best.length < x.length then x else best) t).length))
        = some (rest.foldl (fun best x => if best.length < x.length then x else best) t)) := by
  intro rest
  induction rest with
  | nil =>
    intro t
    refine ⟨List.mem_cons_self t [], ?_, ?_⟩
    · intro x hx
      rcases List.mem_cons.mp hx with heq | hmem
      · subst heq; exact le_refl _
      · simp at hmem
    · simp [List.find?]
  | cons x rest' ih =>
    intro t
    rw [List.foldl_cons]
    by_cases hlt : t.length < x.length
    · rw [if_pos hlt]
      obtain ⟨m1, m2, m3⟩ := ih x
      set m := rest'.foldl (fun best y => if best.length < y.length then y else best) x
      refine ⟨?_, ?_, ?_⟩
      · rcases List.mem_cons.mp m1 with heq | hmem
        · rw [heq]
          exact List.mem_cons_of_mem t (List.mem_cons_self x rest')
        · exact List.mem_cons_of_mem t (List.mem_cons_of_mem x hmem)
      · intro y hy
        rcases List.mem_cons.mp hy with heq | hmem
        · subst heq
          have hx := m2 x (List.mem_cons_self x rest')
          omega
        · exact m2 y hmem
      · have htne : (decide (t.length = m.length)) = false := by
          have hx := m2 x (List.mem_cons_self x rest')
          simp only [decide_eq_false_iff_not]
          omega
        rw [List.find?]
        rw [htne]
        exact m3
    · rw [if_neg hlt]
      obtain ⟨m1, m2, m3⟩ := ih t
      set m := rest'.foldl (fun best y => if best.length < y.length then y else best) t
      have hxle : x.length ≤ t.length := by omega
      have hmge : t.length ≤ m.length := m2 t (List.mem_cons_self t rest')
      refine ⟨?_, ?_, ?_⟩
      · rcases List.mem_cons.mp m1 with heq | hmem
        · exact heq ▸ List.mem_cons_self t (x :: rest')
        · exact List.mem_cons_of_mem t (List.mem_cons_of_mem x hmem)
      · intro y hy
        rcases List.mem_cons.mp hy with heq | hmem
        · subst heq; exact hmge
        · rcases List.mem_cons.mp hmem with heq' | hmem'
          · subst heq'; omega
          · exact m2 y (List.mem_cons_of_mem t hmem')
      · rw [List.find?] at m3 ⊢
        by_cases htm : (decide (t.length = m.length)) = true
        · rw [htm] at m3 ⊢
          exact m3
        · have htm' : (decide (t.length = m.length)) = false := by
            simpa using htm
          rw [htm'] at m3 ⊢
          have hxm : (decide (x.length = m.length)) = false := by
            simp only [decide_eq_false_iff_not]
            simp only [decide_eq_false_iff_not] at htm'
            omega
          rw [List.find?, hxm]
          exact m3

/-- Positional correspondence between opcodes and the segments built from
them. -/
lemma segsOf_corr (r c : List Char) (n : String) :
    ∀ ops ci cj ce cje p k op seg, OpChain r c ci cj ops ce cje →
      ops.get? k = some op → (segsOf r c n p ops).get? k = some seg →
      ∃ q, seg = segOf r c n q op ∧ TagOK r c op ∧ op.i1 ≤ op.i2 ∧
        op.j1 ≤ op.j2 ∧ op.i2 ≤ ce ∧ op.j2 ≤ cje := by
  intro ops
  induction ops with
  | nil => intro ci cj ce cje p k op seg _ hop _; simp at hop
  | cons op0 rest ih =>
    intro ci cj ce cje p k op seg hchain hop hseg
    obtain ⟨q1, q2, q3, q4, q5, q6⟩ := hchain
    have hle := OpChain_le r c rest op0.i2 op0.j2 ce cje q6
    cases k with
    | zero =>
      have hop0 : op0 = op := by simpa using hop
      subst hop0
      have hseg0 : segOf r c n p op0 = seg := by
        have h0 : (segOf r c n p op0 ::
            segsOf r c n (segOf r c n p op0).end_position rest).get? 0 =
              some seg := hseg
        simpa using h0
      exact ⟨p, hseg0.symm, q5, q3, q4, hle.1, hle.2⟩
    | succ k' =>
      have hop' : rest.get? k' = some op := hop
      have hseg' : (segsOf r c n (segOf r c n p op0).end_position rest).get? k' =
          some seg := hseg
      exact ih op0.i2 op0.j2 ce cje _ k' op seg q6 hop' hseg'

lemma segsOf_length (r c : List Char) (n : String) :
    ∀ ops p, (segsOf r c n p ops).length = ops.length := by
  intro ops
  induction ops with
  | nil => intro p; rfl
  | cons op rest ih =>
    intro p
    show (segsOf r c n (segOf r c n p op).end_position rest).length + 1 =
      rest.length + 1
    rw [ih]

lemma segsOf_consec (r c : List Char) (n : String) :
    ∀ ops p k s1 s2, (segsOf r c n p ops).get? k = some s1 →
      (segsOf r c n p ops).get? (k + 1) = some s2 →
      s2.start_position = s1.end_position := by
  intro ops
  induction ops with
  | nil => intro p k s1 s2 h1 _; simp [segsOf] at h1
  | cons op rest ih =>
    intro p k s1 s2 h1 h2
    cases k with
    | zero =>
      have hs1 : segOf r c n p op = s1 := by
        have h0 : (segOf r c n p op ::
            segsOf r c n (segOf r c n p op).end_position rest).get? 0 =
              some s1 := h1
        simpa using h0
      subst hs1
      have h2' : (segsOf r c n (segOf r c n p op).end_position rest).get? 0 =
          some s2 := h2
      cases hrest : segsOf r c n (segOf r c n p op).end_position rest with
      | nil => rw [hrest] at h2'; simp at h2'
      | cons s2' tail =>
        rw [hrest] at h2'
        have hs2 : s2' = s2 := by simpa using h2'
        subst hs2
        cases hops : rest with
        | nil => rw [hops] at hrest; simp [segsOf] at hrest
        | cons op1 rest1 =>
          rw [hops] at hrest
          have hhead : segsOf r c n (segOf r c n p op).end_position (op1 :: rest1) =
              segOf r c n (segOf r c n p op).end_position op1 ::
                segsOf r c n
                  (segOf r c n (segOf r c n p op).end_position op1).end_position
                  rest1 := rfl
          rw [hhead] at hrest
          injection hrest with h1 h2
          rw [← h1, segOf_start]
    | succ k' =>
      exact ih (segOf r c n p op).end_position k' s1 s2 h1 h2

lemma segsOf_first (r c : List Char) (n : String) (ops : List Opcode) (p : Nat)
    (s0 : DiffSegment) (h : (segsOf r c n p ops).get? 0 = some s0) :
    s0.start_position = p := by
  cases ops with
  | nil => simp [segsOf] at h
  | cons op rest =>
    have hs : segOf r c n p op = s0 := by
      have h0 : (segOf r c n p op ::
          segsOf r c n (segOf r c n p op).end_position rest).get? 0 =
            some s0 := h
      simpa using h0
    rw [← hs, segOf_start]

/-! ## Claims -/

/-- C3: `find_consensus_text` returns the longest non-empty text among all
results, breaking ties in favour of the first result (in registration
order) achieving the maximum length; on the spec's concrete inputs it
returns `"abcdef"` and `"abc"` respectively. -/
theorem C3_consensus_first_longest :
    (∀ (results : List RawOCRResult) (t0 : List Char) (rest : List (List Char)),
      (results.map (fun r => r.text)).filter (fun t => decide (t ≠ [])) =
          t0 :: rest →
      find_consensus_text results ∈ t0 :: rest ∧
      (∀ x ∈ t0 :: rest, x.length ≤ (find_consensus_text results).length) ∧
      (t0 :: rest).find?
          (fun x => decide (x.length = (find_consensus_text results).length)) =
        some (find_consensus_text results)) ∧
    find_consensus_text
      [⟨"A", ['a','b','c'], 1, none⟩,
        ⟨"B", ['a','b','c','d','e','f'], 1, none⟩,
        ⟨"C", ['a','b'], 1, none⟩] = ['a','b','c','d','e','f'] ∧
    find_consensus_text
      [⟨"A", ['a','b','c'], 1, none⟩, ⟨"B", ['x','y','z'], 1, none⟩] =
      ['a','b','c'] := by
  refine ⟨?_, by decide, by decide⟩
  intro results t0 rest hfilter
  have hne : results ≠ [] := by
    intro h
    subst h
    simp at hfilter
  have hval : find_consensus_text results =
      rest.foldl (fun best x => if best.length < x.length then x else best) t0 := by
    unfold find_consensus_text
    rw [if_neg hne, hfilter]
  rw [hval]
  exact foldMax_spec rest t0

/-- C3 witness: the first-max characterization instantiated on a concrete
input with a tie. -/
theorem C3_consensus_first_longest_witness :
    find_consensus_text
        [⟨"A", ['a','b','c'], 1, none⟩, ⟨"B", ['x','y','z'], 1, none⟩] ∈
      [['a','b','c'], ['x','y','z']] ∧
    (∀ x ∈ [['a','b','c'], ['x','y','z']], x.length ≤
      (find_consensus_text
        [⟨"A", ['a','b','c'], 1, none⟩, ⟨"B", ['x','y','z'], 1, none⟩]).length) ∧
    [['a','b','c'], ['x','y','z']].find?
        (fun x => decide (x.length =
          (find_consensus_text
            [⟨"A", ['a','b','c'], 1, none⟩,
              ⟨"B", ['x','y','z'], 1, none⟩]).length)) =
      some (find_consensus_text
        [⟨"A", ['a','b','c'], 1, none⟩, ⟨"B", ['x','y','z'], 1, none⟩]) :=
  C3_consensus_first_longest.1
    [⟨"A", ['a','b','c'], 1, none⟩, ⟨"B", ['x','y','z'], 1, none⟩]
    ['a','b','c'] [['x','y','z']] (by decide)

/-- C5: for every engine whose segment list contains no insertion-only
(zero-width) segments, `match_count + diff_count` equals the length of the
reference text. -/
theorem C5_length_invariant (reference comparison : List Char)
    (provider_name : String)
    (hins : ∀ s ∈ align_texts reference comparison provider_name,
      s.start_position ≠ s.end_position) :
    (calculate_accuracy (align_texts reference comparison provider_name)
        reference.length).1 +
      (calculate_accuracy (align_texts reference comparison provider_name)
        reference.length).2.1 = reference.length :=
  align_match_diff reference comparison provider_name

/-- C5 witness: the invariant on the spec's cat/cot example, whose segment
list has no zero-width segment. -/
theorem C5_length_invariant_witness :
    (∀ s ∈ align_texts ['c','a','t'] ['c','o','t'] "E",
      s.start_position ≠ s.end_position) ∧
    (calculate_accuracy (align_texts ['c','a','t'] ['c','o','t'] "E")
        (['c','a','t'] : List Char).length).1 +
      (calculate_accuracy (align_texts ['c','a','t'] ['c','o','t'] "E")
        (['c','a','t'] : List Char).length).2.1 =
      (['c','a','t'] : List Char).length :=
  ⟨by decide, C5_length_invariant ['c','a','t'] ['c','o','t'] "E" (by decide)⟩

/-- C7: `_run_all_ocr` returns exactly one `RawOCRResult` per registered
engine, positionally in registration order; a failing engine yields `error`
set, empty text and zero processing time, a succeeding engine yields its
text and time with `error = none`, and one engine's failure never disturbs
the other engines' results (3-engine example with engine 2 raising). -/
theorem C7_failure_isolation :
    (∀ providers : List Provider,
      (run_all_ocr providers).length = providers.length ∧
      ∀ k p, providers.get? k = some p →
        (run_all_ocr providers).get? k = some (run_single_ocr p) ∧
        (∀ e, p.outcome = Except.error e →
          run_single_ocr p = ⟨p.provider_name, [], 0, some e⟩) ∧
        (∀ t q, p.outcome = Except.ok (t, q) →
          run_single_ocr p = ⟨p.provider_name, t, q, none⟩)) ∧
    run_all_ocr
      [⟨"E1", Except.ok (['a'], 1)⟩, ⟨"E2", Except.error "boom"⟩,
        ⟨"E3", Except.ok (['b','c'], 2)⟩] =
      [⟨"E1", ['a'], 1, none⟩, ⟨"E2", [], 0, some "boom"⟩,
        ⟨"E3", ['b','c'], 2, none⟩] := by
  constructor
  · intro providers
    constructor
    · show (providers.map run_single_ocr).length = providers.length
      rw [List.length_map]
    · intro k p hk
      refine ⟨?_, ?_, ?_⟩
      · show (providers.map run_single_ocr).get? k = some (run_single_ocr p)
        rw [List.get?_map, hk]
        rfl
      · intro e he
        unfold run_single_ocr
        rw [he]
      · intro t q hq
        unfold run_single_ocr
        rw [hq]
  · rfl

/-- C7 witness: the positional contract instantiated at the failing engine
of the 3-engine example. -/
theorem C7_failure_isolation_witness :
    (run_all_ocr
        [⟨"E1", Except.ok (['a'], 1)⟩, ⟨"E2", Except.error "boom"⟩,
          ⟨"E3", Except.ok (['b','c'], 2)⟩]).get? 1 =
      some (run_single_ocr ⟨"E2", Except.error "boom"⟩) ∧
    run_single_ocr ⟨"E2", Except.error "boom"⟩ = ⟨"E2", [], 0, some "boom"⟩ :=
  ⟨((C7_failure_isolation.1
      [⟨"E1", Except.ok (['a'], 1)⟩, ⟨"E2", Except.error "boom"⟩,
        ⟨"E3", Except.ok (['b','c'], 2)⟩]).2 1
      ⟨"E2", Except.error "boom"⟩ rfl).1,
    ((C7_failure_isolation.1
      [⟨"E1", Except.ok (['a'], 1)⟩, ⟨"E2", Except.error "boom"⟩,
        ⟨"E3", Except.ok (['b','c'], 2)⟩]).2 1
      ⟨"E2", Except.error "boom"⟩ rfl).2.1 "boom" rfl⟩

/-- C8: the task record is always left in a terminal state (`completed` or
`failed`, never `processing`), and any exception escaping the per-engine
isolation yields status `failed` with the diagnostic message recorded and
no partial result stored. -/
theorem C8_terminal_state (task_id filename : String)
    (outcome : Except String (List RawOCRResult)) :
    ((process_document task_id filename outcome).status = TaskStatus.completed ∨
      (process_document task_id filename outcome).status = TaskStatus.failed) ∧
    (∀ e, outcome = Except.error e →
      process_document task_id filename outcome =
        { status := TaskStatus.failed, filename := filename, result := none,
          error := some e }) := by
  cases outcome with
  | ok raws =>
    refine ⟨Or.inl rfl, ?_⟩
    intro e he
    cases he
  | error e =>
    refine ⟨Or.inr rfl, ?_⟩
    intro e' he'
    injection he' with h
    rw [← h]
    rfl

/-- C8 witness: a concrete pipeline failure is recorded as `failed` with
its message and no result. -/
theorem C8_terminal_state_witness :
    process_document "t1" "doc.pdf" (Except.error "boom") =
      { status := TaskStatus.failed, filename := "doc.pdf", result := none,
        error := some "boom" } :=
  (C8_terminal_state "t1" "doc.pdf" (Except.error "boom")).2 "boom" rfl

/-- C10: the segments of `align_texts` tile both texts: the segment texts
concatenate to the reference (inserts contributing the empty string), the
candidate-side `providers_data` entries concatenate to the candidate, each
segment's positions are the offsets of its text in that concatenation, and
`match_count + diff_count` equals the reference length for every candidate,
insertion segments included. -/
theorem C10_tiling (reference comparison : List Char) (provider_name : String) :
    ((align_texts reference comparison provider_name).map
        (fun s => s.text)).join = reference ∧
    ((align_texts reference comparison provider_name).map
        (fun s => lookupPD s.providers_data provider_name)).join = comparison ∧
    (∀ k seg,
      (align_texts reference comparison provider_name).get? k = some seg →
      seg.start_position =
        ((((align_texts reference comparison provider_name).take k).map
          (fun s => s.text)).join).length ∧
      seg.end_position = seg.start_position + seg.text.length) ∧
    (calculate_accuracy (align_texts reference comparison provider_name)
        reference.length).1 +
      (calculate_accuracy (align_texts reference comparison provider_name)
        reference.length).2.1 = reference.length := by
  refine ⟨align_texts_join reference comparison provider_name,
    align_texts_join_name reference comparison provider_name, ?_,
    align_match_diff reference comparison provider_name⟩
  intro k seg hk
  rw [align_texts_eq] at hk
  obtain ⟨hs, he⟩ := segsOf_pos reference comparison provider_name
    (get_opcodes reference comparison) 0 k seg hk
  refine ⟨?_, he⟩
  rw [hs, align_texts_eq, List.length_join, List.map_map]
  exact Nat.zero_add _

/-- C10 witness: the tiling positions at the third segment of aligning
`"ab"` against `"aXb"` (which contains an insertion segment). -/
theorem C10_tiling_witness :
    (⟨['b'], SegmentType.«match», 1, 2, [("reference", ['b']), ("E", ['b'])]⟩ :
        DiffSegment).start_position =
      ((((align_texts ['a','b'] ['a','X','b'] "E").take 2).map
        (fun s => s.text)).join).length ∧
    (⟨['b'], SegmentType.«match», 1, 2, [("reference", ['b']), ("E", ['b'])]⟩ :
        DiffSegment).end_position =
      (⟨['b'], SegmentType.«match», 1, 2, [("reference", ['b']), ("E", ['b'])]⟩ :
        DiffSegment).start_position +
      (⟨['b'], SegmentType.«match», 1, 2, [("reference", ['b']), ("E", ['b'])]⟩ :
        DiffSegment).text.length :=
  (C10_tiling ['a','b'] ['a','X','b'] "E").2.2.1 2
    ⟨['b'], SegmentType.«match», 1, 2, [("reference", ['b']), ("E", ['b'])]⟩
    (by decide)

seal find_longest_match matchingBlocksRecF in
/-- C6: `accuracy_percent` equals `match_count / length(reference) * 100`,
guarded to `0` when the reference is empty; when every engine returns an
empty string the consensus reference is empty and every comparison result
has accuracy `0` and an empty segment list. -/
theorem C6_accuracy_formula :
    (∀ (raw_results : List RawOCRResult) (cr : ComparisonResult),
      cr ∈ create_comparison_results raw_results →
      cr.accuracy_percent =
        if (find_consensus_text raw_results).length = 0 then 0
        else (cr.match_count : ℚ) /
          ((find_consensus_text raw_results).length : ℚ) * 100) ∧
    (∀ results : List RawOCRResult, (∀ res ∈ results, res.text = []) →
      find_consensus_text results = [] ∧
      ∀ cr ∈ create_comparison_results results,
        cr.accuracy_percent = 0 ∧ cr.segments = []) := by
  constructor
  · intro raw_results cr hcr
    have hne : raw_results ≠ [] := by
      intro h
      subst h
      simp [create_comparison_results] at hcr
    unfold create_comparison_results at hcr
    rw [if_neg hne] at hcr
    simp only [List.mem_map] at hcr
    obtain ⟨result, hres, heq⟩ := hcr
    rw [← heq]
    show (calculate_accuracy
        (align_texts (find_consensus_text raw_results) result.text
          result.provider_name)
        (find_consensus_text raw_results).length).2.2 = _
    rw [calculate_accuracy_acc]
  · intro results hall
    have hcons : find_consensus_text results = [] := by
      unfold find_consensus_text
      by_cases hne : results = []
      · rw [if_pos hne]
      · rw [if_neg hne]
        have hfil : (results.map (fun r => r.text)).filter
            (fun t => decide (t ≠ [])) = [] := by
          rw [List.filter_eq_nil]
          intro t ht
          rw [List.mem_map] at ht
          obtain ⟨res, hres, hteq⟩ := ht
          subst hteq
          simp [hall res hres]
        rw [hfil]
    refine ⟨hcons, ?_⟩
    intro cr hcr
    by_cases hne : results = []
    · subst hne
      simp [create_comparison_results] at hcr
    · unfold create_comparison_results at hcr
      rw [if_neg hne] at hcr
      simp only [List.mem_map] at hcr
      obtain ⟨result, hres, heq⟩ := hcr
      have htext := hall result hres
      have hsegs : align_texts (find_consensus_text results) result.text
          result.provider_name = [] := by
        rw [hcons, htext, align_texts_eq, get_opcodes_nil]
        rfl
      constructor
      · rw [← heq]
        show (calculate_accuracy (align_texts (find_consensus_text results)
            result.text result.provider_name)
            (find_consensus_text results).length).2.2 = 0
        rw [hsegs, hcons]
        rfl
      · rw [← heq]
        show align_texts (find_consensus_text results) result.text
            result.provider_name = []
        exact hsegs

/-- C6 witness: the empty-input edge case on one errored engine with empty
text. -/
theorem C6_accuracy_formula_witness :
    find_consensus_text [⟨"A", [], 0, some "x"⟩] = [] ∧
    ∀ cr ∈ create_comparison_results [⟨"A", [], 0, some "x"⟩],
      cr.accuracy_percent = 0 ∧ cr.segments = [] :=
  C6_accuracy_formula.2 [⟨"A", [], 0, some "x"⟩] (by decide)

/-- C1 counterexample: with engine A returning `"ab"` and engine B failing
(error set, empty text), a `ComparisonResult` IS computed for engine B, and
B's statistics entry has `differences = 2` (the reference length), not `0`:
the defaulting branch of `_generate_statistics` is dead because
`create_comparison_results` builds a result for every raw result, errored
ones included. -/
theorem C1_counterexample :
    ((create_comparison_results
        [⟨"A", ['a','b'], 1, none⟩, ⟨"B", [], 0, some "boom"⟩]).map
      (fun cr => cr.provider_name)) = ["A", "B"] ∧
    ((generate_statistics
        [⟨"A", ['a','b'], 1, none⟩, ⟨"B", [], 0, some "boom"⟩]
        (create_comparison_results
          [⟨"A", ['a','b'], 1, none⟩, ⟨"B", [], 0, some "boom"⟩])).map
      (fun st => (st.provider_name, st.total_chars, st.differences))) =
      [("A", 2, 0), ("B", 0, 2)] :=
  ⟨by decide, by decide⟩

lemma generate_statistics_get? (raw_results : List RawOCRResult)
    (comparison_results : List ComparisonResult) (k : Nat)
    (raw : RawOCRResult) (hk : raw_results.get? k = some raw)
    (comp : ComparisonResult)
    (hc : comparison_map_get comparison_results raw.provider_name = some comp) :
    (generate_statistics raw_results comparison_results).get? k = some
      { provider_name := raw.provider_name
        total_chars := comp.total_characters
        differences := comp.diff_count
        accuracy := comp.accuracy_percent
        processing_time := raw.processing_time } := by
  unfold generate_statistics
  rw [List.get?_map, hk, Option.map_some']
  rw [hc]

seal find_longest_match matchingBlocksRecF in
/-- C1 (amended): an errored engine still gets a `ComparisonResult`; its
statistics entry carries `total_chars = 0` (its own empty text's length),
`differences = length of the consensus reference` (not `0`), `accuracy = 0`,
and its own `processing_time`. -/
theorem C1_amended (raw_results : List RawOCRResult) (k : Nat)
    (raw : RawOCRResult) (e : String)
    (hnodup : (raw_results.map (fun r => r.provider_name)).Nodup)
    (hk : raw_results.get? k = some raw)
    (herr : raw.error = some e) (htext : raw.text = []) :
    ∃ st, (generate_statistics raw_results
        (create_comparison_results raw_results)).get? k = some st ∧
      st.provider_name = raw.provider_name ∧
      st.total_chars = 0 ∧
      st.differences = (find_consensus_text raw_results).length ∧
      st.accuracy = 0 ∧
      st.processing_time = raw.processing_time := by
  have hne : raw_results ≠ [] := by
    intro h
    subst h
    simp at hk
  have hmem : raw ∈ raw_results := List.get?_mem hk
  have hcmg : comparison_map_get (create_comparison_results raw_results)
      raw.provider_name = some
        { provider_name := raw.provider_name
          segments := align_texts (find_consensus_text raw_results) raw.text
            raw.provider_name
          total_characters := raw.text.length
          match_count := (calculate_accuracy
            (align_texts (find_consensus_text raw_results) raw.text
              raw.provider_name)
            (find_consensus_text raw_results).length).1
          diff_count := (calculate_accuracy
            (align_texts (find_consensus_text raw_results) raw.text
              raw.provider_name)
            (find_consensus_text raw_results).length).2.1
          accuracy_percent := (calculate_accuracy
            (align_texts (find_consensus_text raw_results) raw.text
              raw.provider_name)
            (find_consensus_text raw_results).length).2.2 } := by
    have hnames : (create_comparison_results raw_results).map
        (fun x => x.provider_name) =
        raw_results.map (fun r => r.provider_name) := by
      unfold create_comparison_results
      rw [if_neg hne, List.map_map]
      rfl
    have hmem' :
        ({ provider_name := raw.provider_name
           segments := align_texts (find_consensus_text raw_results) raw.text
             raw.provider_name
           total_characters := raw.text.length
           match_count := (calculate_accuracy
             (align_texts (find_consensus_text raw_results) raw.text
               raw.provider_name)
             (find_consensus_text raw_results).length).1
           diff_count := (calculate_accuracy
             (align_texts (find_consensus_text raw_results) raw.text
               raw.provider_name)
             (find_consensus_text raw_results).length).2.1
           accuracy_percent := (calculate_accuracy
             (align_texts (find_consensus_text raw_results) raw.text
               raw.provider_name)
             (find_consensus_text raw_results).length).2.2 } :
          ComparisonResult) ∈ create_comparison_results raw_results := by
      unfold create_comparison_results
      rw [if_neg hne]
      exact List.mem_map.mpr ⟨raw, hmem, rfl⟩
    unfold comparison_map_get
    exact find?_reverse_unique (create_comparison_results raw_results)
      raw.provider_name _ (by rw [hnames]; exact hnodup) hmem' rfl
  refine ⟨_, generate_statistics_get? raw_results
    (create_comparison_results raw_results) k raw hk _ hcmg, rfl, ?_, ?_, ?_, rfl⟩
  · show raw.text.length = 0
    rw [htext]
    rfl
  · show (calculate_accuracy
      (align_texts (find_consensus_text raw_results) raw.text
        raw.provider_name)
      (find_consensus_text raw_results).length).2.1 =
      (find_consensus_text raw_results).length
    rw [htext, align_nil_candidate]
  · show (calculate_accuracy
      (align_texts (find_consensus_text raw_results) raw.text
        raw.provider_name)
      (find_consensus_text raw_results).length).2.2 = 0
    rw [htext, align_nil_candidate]

/-- C1 witness: the amended statement at the concrete two-engine input of
the counterexample. -/
theorem C1_amended_witness :
    ∃ st, (generate_statistics
        [⟨"A", ['a','b'], 1, none⟩, ⟨"B", [], 0, some "boom"⟩]
        (create_comparison_results
          [⟨"A", ['a','b'], 1, none⟩, ⟨"B", [], 0, some "boom"⟩])).get? 1 =
        some st ∧
      st.provider_name = (⟨"B", [], 0, some "boom"⟩ : RawOCRResult).provider_name ∧
      st.total_chars = 0 ∧
      st.differences = (find_consensus_text
        [⟨"A", ['a','b'], 1, none⟩, ⟨"B", [], 0, some "boom"⟩]).length ∧
      st.accuracy = 0 ∧
      st.processing_time =
        (⟨"B", [], 0, some "boom"⟩ : RawOCRResult).processing_time :=
  C1_amended [⟨"A", ['a','b'], 1, none⟩, ⟨"B", [], 0, some "boom"⟩] 1
    ⟨"B", [], 0, some "boom"⟩ "boom" (by decide) rfl rfl rfl

lemma dedup_length_one {α : Type} [DecidableEq α] (x : α) (l : List α) :
    (x :: l).dedup.length = 1 ↔ ∀ y ∈ l, y = x := by
  constructor
  · intro h1 y hy
    obtain ⟨z, hz⟩ := List.length_eq_one.mp h1
    have hyz : y ∈ (x :: l).dedup := List.mem_dedup.mpr (List.mem_cons_of_mem x hy)
    have hxz : x ∈ (x :: l).dedup := List.mem_dedup.mpr (List.mem_cons_self x l)
    rw [hz] at hyz hxz
    simp at hyz hxz
    rw [hyz, hxz]
  · intro hall
    have hmem : ∀ y ∈ (x :: l).dedup, y = x := by
      intro y hy
      rcases List.mem_cons.mp (List.mem_dedup.mp hy) with h | h
      · exact h
      · exact hall y h
    have hx : x ∈ (x :: l).dedup := List.mem_dedup.mpr (List.mem_cons_self x l)
    have hnd : (x :: l).dedup.Nodup := List.nodup_dedup _
    cases hd : (x :: l).dedup with
    | nil => rw [hd] at hx; simp at hx
    | cons z rest =>
      rw [hd] at hmem hnd
      have hz : z = x := hmem z (List.mem_cons_self z rest)
      have hrest : rest = [] := by
        cases hr2 : rest with
        | nil => rfl
        | cons w ws =>
          exfalso
          rw [hr2] at hmem hnd
          have hw : w = x := hmem w
            (List.mem_cons_of_mem z (List.mem_cons_self w ws))
          rw [List.nodup_cons] at hnd
          apply hnd.1
          rw [hw, ← hz]
          exact List.mem_cons_self z ws
      rw [hrest]
      rfl

lemma dedup_cons_pos {α : Type} [DecidableEq α] (x : α) (l : List α) :
    1 ≤ (x :: l).dedup.length := by
  have hx : x ∈ (x :: l).dedup := List.mem_dedup.mpr (List.mem_cons_self x l)
  have := List.length_pos.mpr (List.ne_nil_of_mem hx)
  omega

lemma fresh_of_href (all_results : List RawOCRResult) (rl : List Char)
    (href : ∀ res ∈ all_results, res.provider_name ≠ "reference") :
    ∀ res ∈ all_results,
      ∀ pr ∈ ([("reference", rl)] : List (String × List Char)),
        pr.1 ≠ res.provider_name := by
  intro res hres pr hpr
  have hpr' : pr = ("reference", rl) := by simpa using hpr
  subst hpr'
  show "reference" ≠ res.provider_name
  exact fun hc => (href res hres) hc.symm

/-- The fold of `merge_multiple_alignments` over one reference line, in
closed form. -/
lemma mergeLine_st (all_results : List RawOCRResult) (rl : List Char) (k : Nat)
    (hnodup : (all_results.map (fun r => r.provider_name)).Nodup)
    (href : ∀ res ∈ all_results, res.provider_name ≠ "reference") :
    all_results.foldl (mergeStep rl k) ([("reference", rl)], true) =
      (("reference", rl) ::
          all_results.map (fun res => (res.provider_name, lineAt k res)),
        all_results.all (fun res => decide (lineAt k res = rl))) := by
  rw [mergeFold rl k all_results [("reference", rl)] true
    (fresh_of_href all_results rl href) hnodup]
  rw [List.singleton_append, Bool.true_and]

lemma mergeLine_data (all_results : List RawOCRResult) (rl : List Char) (k : Nat)
    (hnodup : (all_results.map (fun r => r.provider_name)).Nodup)
    (href : ∀ res ∈ all_results, res.provider_name ≠ "reference") :
    (mergeLine all_results rl k).providers_data =
      ("reference", rl) ::
        all_results.map (fun res => (res.provider_name, lineAt k res)) := by
  show (all_results.foldl (mergeStep rl k) ([("reference", rl)], true)).1 = _
  rw [mergeLine_st all_results rl k hnodup href]

lemma mergeLine_type (all_results : List RawOCRResult) (rl : List Char) (k : Nat)
    (hnodup : (all_results.map (fun r => r.provider_name)).Nodup)
    (href : ∀ res ∈ all_results, res.provider_name ≠ "reference") :
    (mergeLine all_results rl k).segment_type =
      if (rl :: all_results.map (fun res => lineAt k res)).dedup.length = 1
      then SegmentType.«match»
      else if (rl :: all_results.map (fun res => lineAt k res)).dedup.length = 2
      then SegmentType.minor_diff
      else SegmentType.major_diff := by
  show (if (all_results.foldl (mergeStep rl k) ([("reference", rl)], true)).2
        = true ∨
      (((all_results.foldl (mergeStep rl k)
          ([("reference", rl)], true)).1.map (fun p => p.2)).dedup.length = 1)
    then SegmentType.«match»
    else if ((all_results.foldl (mergeStep rl k)
        ([("reference", rl)], true)).1.map (fun p => p.2)).dedup.length ≤ 2
    then SegmentType.minor_diff
    else SegmentType.major_diff) = _
  rw [mergeLine_st all_results rl k hnodup href]
  simp only []
  rw [List.map_cons, List.map_map]
  show (if ((all_results.all (fun res => decide (lineAt k res = rl))) = true ∨
      (rl :: all_results.map (fun res => lineAt k res)).dedup.length = 1)
    then SegmentType.«match»
    else if (rl :: all_results.map (fun res => lineAt k res)).dedup.length ≤ 2
    then SegmentType.minor_diff
    else SegmentType.major_diff) = _
  have hBu : (all_results.all (fun res => decide (lineAt k res = rl)) = true) ↔
      (rl :: all_results.map (fun res => lineAt k res)).dedup.length = 1 := by
    rw [List.all_eq_true, dedup_length_one]
    constructor
    · intro h y hy
      rw [List.mem_map] at hy
      obtain ⟨res, hres, hyeq⟩ := hy
      subst hyeq
      exact of_decide_eq_true (h res hres)
    · intro h res hres
      exact decide_eq_true (h (lineAt k res) (List.mem_map.mpr ⟨res, hres, rfl⟩))
  have hpos := dedup_cons_pos rl (all_results.map (fun res => lineAt k res))
  by_cases h1 : (rl :: all_results.map (fun res => lineAt k res)).dedup.length = 1
  · rw [if_pos (Or.inr h1), if_pos h1]
  · have hB : ¬(all_results.all (fun res => decide (lineAt k res = rl)) = true) :=
      fun hc => h1 (hBu.mp hc)
    rw [if_neg (by tauto), if_neg h1]
    by_cases h2 : (rl :: all_results.map (fun res => lineAt k res)).dedup.length = 2
    · rw [if_pos (by omega), if_pos h2]
    · rw [if_neg (by omega), if_neg h2]

/-- C9: the line-level comparison mode builds exactly one merged segment
per reference line index, carrying each engine's corresponding line (or
the empty string when that engine's text has fewer lines) next to the
reference line, and classifies the segment by the number of distinct text
variants among the carried lines (reference included, as in the
`providers_data` dict whose values are counted): `match` for one variant,
`minor_diff` for exactly two, `major_diff` otherwise. -/
theorem C9_line_merge (reference : List Char) (all_results : List RawOCRResult)
    (hnodup : (all_results.map (fun r => r.provider_name)).Nodup)
    (href : ∀ res ∈ all_results, res.provider_name ≠ "reference") :
    (merge_multiple_alignments reference all_results).length =
      (splitNl reference).length ∧
    ∀ k, k < (splitNl reference).length →
      ∃ seg,
        (merge_multiple_alignments reference all_results).get? k = some seg ∧
        seg.text = (splitNl reference).getD k [] ∧
        seg.start_position = k ∧
        seg.end_position = k + 1 ∧
        seg.providers_data = ("reference", (splitNl reference).getD k []) ::
          all_results.map (fun res => (res.provider_name, lineAt k res)) ∧
        (seg.segment_type = SegmentType.«match» ↔
          ((splitNl reference).getD k [] ::
            all_results.map (fun res => lineAt k res)).dedup.length = 1) ∧
        (seg.segment_type = SegmentType.minor_diff ↔
          ((splitNl reference).getD k [] ::
            all_results.map (fun res => lineAt k res)).dedup.length = 2) ∧
        (seg.segment_type = SegmentType.major_diff ↔
          3 ≤ ((splitNl reference).getD k [] ::
            all_results.map (fun res => lineAt k res)).dedup.length) := by
  constructor
  · show ((List.range (splitNl reference).length).map
      (fun line_idx => mergeLine all_results
        ((splitNl reference).getD line_idx []) line_idx)).length = _
    rw [List.length_map, List.length_range]
  · intro k hk
    refine ⟨mergeLine all_results ((splitNl reference).getD k []) k,
      ?_, rfl, rfl, rfl,
      mergeLine_data all_results ((splitNl reference).getD k []) k hnodup href,
      ?_, ?_, ?_⟩
    · show ((List.range (splitNl reference).length).map
        (fun line_idx => mergeLine all_results
          ((splitNl reference).getD line_idx []) line_idx)).get? k = _
      rw [List.get?_map, List.get?_range hk]
      rfl
    all_goals
      rw [mergeLine_type all_results ((splitNl reference).getD k []) k hnodup href]
    · have hpos := dedup_cons_pos ((splitNl reference).getD k [])
        (all_results.map (fun res => lineAt k res))
      by_cases h1 : ((splitNl reference).getD k [] ::
          all_results.map (fun res => lineAt k res)).dedup.length = 1
      · rw [if_pos h1]
        exact ⟨fun _ => h1, fun _ => rfl⟩
      · rw [if_neg h1]
        constructor
        · intro hc
          by_cases h2 : ((splitNl reference).getD k [] ::
              all_results.map (fun res => lineAt k res)).dedup.length = 2
          · rw [if_pos h2] at hc
            exact absurd hc (by intro h; exact SegmentType.noConfusion h)
          · rw [if_neg h2] at hc
            exact absurd hc (by intro h; exact SegmentType.noConfusion h)
        · intro hc
          exact absurd hc h1
    · by_cases h1 : ((splitNl reference).getD k [] ::
          all_results.map (fun res => lineAt k res)).dedup.length = 1
      · rw [if_pos h1]
        constructor
        · intro hc
          exact absurd hc (by intro h; exact SegmentType.noConfusion h)
        · intro hc
          omega
      · rw [if_neg h1]
        by_cases h2 : ((splitNl reference).getD k [] ::
            all_results.map (fun res => lineAt k res)).dedup.length = 2
        · rw [if_pos h2]
          exact ⟨fun _ => h2, fun _ => rfl⟩
        · rw [if_neg h2]
          constructor
          · intro hc
            exact absurd hc (by intro h; exact SegmentType.noConfusion h)
          · intro hc
            exact absurd hc h2
    · have hpos := dedup_cons_pos ((splitNl reference).getD k [])
        (all_results.map (fun res => lineAt k res))
      by_cases h1 : ((splitNl reference).getD k [] ::
          all_results.map (fun res => lineAt k res)).dedup.length = 1
      · rw [if_pos h1]
        constructor
        · intro hc
          exact absurd hc (by intro h; exact SegmentType.noConfusion h)
        · intro hc
          omega
      · rw [if_neg h1]
        by_cases h2 : ((splitNl reference).getD k [] ::
            all_results.map (fun res => lineAt k res)).dedup.length = 2
        · rw [if_pos h2]
          constructor
          · intro hc
            exact absurd hc (by intro h; exact SegmentType.noConfusion h)
          · intro hc
            omega
        · rw [if_neg h2]
          exact ⟨fun _ => by omega, fun _ => rfl⟩

/-- C9 witness: the merged-segment contract on a two-line reference with
two engines, one of which is missing its second line. -/
theorem C9_line_merge_witness :
    (merge_multiple_alignments ['a', '\n', 'b']
        [⟨"E1", ['a', '\n', 'b'], 1, none⟩, ⟨"E2", ['a'], 1, none⟩]).length =
      (splitNl ['a', '\n', 'b']).length ∧
    ∀ k, k < (splitNl ['a', '\n', 'b']).length →
      ∃ seg,
        (merge_multiple_alignments ['a', '\n', 'b']
          [⟨"E1", ['a', '\n', 'b'], 1, none⟩,
            ⟨"E2", ['a'], 1, none⟩]).get? k = some seg ∧
        seg.text = (splitNl ['a', '\n', 'b']).getD k [] ∧
        seg.start_position = k ∧
        seg.end_position = k + 1 ∧
        seg.providers_data =
          ("reference", (splitNl ['a', '\n', 'b']).getD k []) ::
          [⟨"E1", ['a', '\n', 'b'], 1, none⟩,
            ⟨"E2", ['a'], 1, none⟩].map
            (fun res : RawOCRResult => (res.provider_name, lineAt k res)) ∧
        (seg.segment_type = SegmentType.«match» ↔
          ((splitNl ['a', '\n', 'b']).getD k [] ::
            [⟨"E1", ['a', '\n', 'b'], 1, none⟩,
              ⟨"E2", ['a'], 1, none⟩].map
              (fun res : RawOCRResult => lineAt k res)).dedup.length = 1) ∧
        (seg.segment_type = SegmentType.minor_diff ↔
          ((splitNl ['a', '\n', 'b']).getD k [] ::
            [⟨"E1", ['a', '\n', 'b'], 1, none⟩,
              ⟨"E2", ['a'], 1, none⟩].map
              (fun res : RawOCRResult => lineAt k res)).dedup.length = 2) ∧
        (seg.segment_type = SegmentType.major_diff ↔
          3 ≤ ((splitNl ['a', '\n', 'b']).getD k [] ::
            [⟨"E1", ['a', '\n', 'b'], 1, none⟩,
              ⟨"E2", ['a'], 1, none⟩].map
              (fun res : RawOCRResult => lineAt k res)).dedup.length) :=
  C9_line_merge ['a', '\n', 'b']
    [⟨"E1", ['a', '\n', 'b'], 1, none⟩, ⟨"E2", ['a'], 1, none⟩]
    (by decide) (by decide)

set_option maxHeartbeats 1600000 in
/-- C4: `align_texts` maps opcodes to segments as: `equal` becomes a
`match` whose reference and candidate slices are identical; `replace`
becomes `major_diff` carrying both slices; `delete` becomes `minor_diff`
with an empty candidate side; `insert` becomes `minor_diff`, zero-width
and consuming no reference length; positions are reference offsets that
advance by the reference-side length of each segment, starting at `0`;
and on reference `"cat"` versus candidate `"cot"` the result is
`[match "c", major_diff("a" vs "o"), match "t"]` with `match_count = 2`,
`diff_count = 1` and `accuracy_percent = 200/3` (~66.67). -/
theorem C4_opcode_segment_mapping :
    (∀ (r c : List Char) (n : String), n ≠ "reference" →
      ∀ k op seg, (get_opcodes r c).get? k = some op →
        (align_texts r c n).get? k = some seg →
        (op.tag = Tag.equal → seg.segment_type = SegmentType.«match» ∧
          seg.text = pySlice r op.i1 op.i2 ∧
          lookupPD seg.providers_data "reference" = seg.text ∧
          lookupPD seg.providers_data n = seg.text) ∧
        (op.tag = Tag.replace → seg.segment_type = SegmentType.major_diff ∧
          seg.text = pySlice r op.i1 op.i2 ∧
          lookupPD seg.providers_data "reference" = seg.text ∧
          lookupPD seg.providers_data n = pySlice c op.j1 op.j2) ∧
        (op.tag = Tag.delete → seg.segment_type = SegmentType.minor_diff ∧
          seg.text = pySlice r op.i1 op.i2 ∧
          lookupPD seg.providers_data n = []) ∧
        (op.tag = Tag.insert → seg.segment_type = SegmentType.minor_diff ∧
          seg.text = [] ∧ seg.start_position = seg.end_position ∧
          lookupPD seg.providers_data n = pySlice c op.j1 op.j2) ∧
        seg.end_position = seg.start_position + seg.text.length) ∧
    (∀ (r c : List Char) (n : String) k s1 s2,
      (align_texts r c n).get? k = some s1 →
      (align_texts r c n).get? (k + 1) = some s2 →
      s2.start_position = s1.end_position) ∧
    (∀ (r c : List Char) (n : String) s0,
      (align_texts r c n).get? 0 = some s0 → s0.start_position = 0) ∧
    align_texts ['c','a','t'] ['c','o','t'] "E" =
      [⟨['c'], SegmentType.«match», 0, 1, [("reference", ['c']), ("E", ['c'])]⟩,
        ⟨['a'], SegmentType.major_diff, 1, 2,
          [("reference", ['a']), ("E", ['o'])]⟩,
        ⟨['t'], SegmentType.«match», 2, 3, [("reference", ['t']), ("E", ['t'])]⟩] ∧
    (calculate_accuracy (align_texts ['c','a','t'] ['c','o','t'] "E") 3).1 = 2 ∧
    (calculate_accuracy (align_texts ['c','a','t'] ['c','o','t'] "E") 3).2.1 = 1 ∧
    (calculate_accuracy (align_texts ['c','a','t'] ['c','o','t'] "E") 3).2.2 =
      200 / 3 := by
  refine ⟨?_, ?_, ?_, by decide, by decide, by decide, ?_⟩
  · intro r c n hn k op seg hop hseg
    rw [align_texts_eq] at hseg
    obtain ⟨q, hseg_eq, hok, h12, h34, hce, hcje⟩ :=
      segsOf_corr r c n (get_opcodes r c) 0 0 r.length c.length 0 k op seg
        (get_opcodes_chain r c) hop hseg
    subst hseg_eq
    cases op with
    | mk tg x1 x2 y1 y2 =>
      cases tg with
      | equal =>
        obtain ⟨ho1, ho2, ho3⟩ := hok
        refine ⟨fun _ => ⟨rfl, rfl, ?_, ?_⟩,
          fun h => Tag.noConfusion h, fun h => Tag.noConfusion h,
          fun h => Tag.noConfusion h, by rw [segOf_end, segOf_start]⟩
        · exact lookupPD_mk_ref n _ _ hn
        · exact (lookupPD_mk n _ _).trans
            (pySlice_congr r c x1 x2 y1 y2 hce hcje h12 h34 ho2 ho3).symm
      | replace =>
        refine ⟨fun h => Tag.noConfusion h, fun _ => ⟨rfl, rfl, ?_, ?_⟩,
          fun h => Tag.noConfusion h, fun h => Tag.noConfusion h,
          by rw [segOf_end, segOf_start]⟩
        · exact lookupPD_mk_ref n _ _ hn
        · exact lookupPD_mk n _ _
      | delete =>
        refine ⟨fun h => Tag.noConfusion h, fun h => Tag.noConfusion h,
          fun _ => ⟨rfl, rfl, ?_⟩, fun h => Tag.noConfusion h,
          by rw [segOf_end, segOf_start]⟩
        exact lookupPD_mk n _ _
      | insert =>
        refine ⟨fun h => Tag.noConfusion h, fun h => Tag.noConfusion h,
          fun h => Tag.noConfusion h, fun _ => ⟨rfl, rfl, rfl, ?_⟩,
          by rw [segOf_end, segOf_start]⟩
        exact lookupPD_mk n _ _
  · intro r c n k s1 s2 h1 h2
    rw [align_texts_eq] at h1 h2
    exact segsOf_consec r c n (get_opcodes r c) 0 k s1 s2 h1 h2
  · intro r c n s0 h0
    rw [align_texts_eq] at h0
    exact segsOf_first r c n (get_opcodes r c) 0 s0 h0
  · rw [calculate_accuracy_acc]
    rw [if_neg (by norm_num)]
    have h1 : (calculate_accuracy
        (align_texts ['c','a','t'] ['c','o','t'] "E") 3).1 = 2 := by decide
    rw [h1]
    norm_num

/-- C4 witness: the concrete cat/cot segment list, read off the mapping
theorem. -/
theorem C4_opcode_segment_mapping_witness :
    align_texts ['c','a','t'] ['c','o','t'] "E" =
      [⟨['c'], SegmentType.«match», 0, 1, [("reference", ['c']), ("E", ['c'])]⟩,
        ⟨['a'], SegmentType.major_diff, 1, 2,
          [("reference", ['a']), ("E", ['o'])]⟩,
        ⟨['t'], SegmentType.«match», 2, 3,
          [("reference", ['t']), ("E", ['t'])]⟩] :=
  C4_opcode_segment_mapping.2.2.2.1

/-! ## Machinery for the exact-match claim -/

lemma calc_fold_diff_le (segs : List DiffSegment) :
    ∀ (m0 d0 : Nat), d0 ≤ (segs.foldl (fun (md : Nat × Nat) seg =>
      if seg.segment_type = SegmentType.«match» then
        (md.1 + seg.text.length, md.2)
      else (md.1, md.2 + seg.text.length)) (m0, d0)).2 := by
  induction segs with
  | nil => intro m0 d0; exact le_refl d0
  | cons seg rest ih =>
    intro m0 d0
    rw [List.foldl_cons]
    by_cases h : seg.segment_type = SegmentType.«match»
    · rw [if_pos h]
      have e1 : ((m0, d0).1 + seg.text.length, (m0, d0).2) =
          (m0 + seg.text.length, d0) := rfl
      rw [e1]
      exact ih _ d0
    · rw [if_neg h]
      have e1 : ((m0, d0).1, (m0, d0).2 + seg.text.length) =
          (m0, d0 + seg.text.length) := rfl
      rw [e1]
      have := ih m0 (d0 + seg.text.length)
      omega

lemma calc_nonmatch_le (segs : List DiffSegment) :
    ∀ (m0 d0 : Nat) (s : DiffSegment), s ∈ segs →
      s.segment_type ≠ SegmentType.«match» →
      s.text.length ≤ (segs.foldl (fun (md : Nat × Nat) seg =>
        if seg.segment_type = SegmentType.«match» then
          (md.1 + seg.text.length, md.2)
        else (md.1, md.2 + seg.text.length)) (m0, d0)).2 := by
  induction segs with
  | nil => intro m0 d0 s hs _; simp at hs
  | cons seg rest ih =>
    intro m0 d0 s hs hnm
    rw [List.foldl_cons]
    rcases List.mem_cons.mp hs with heq | hmem
    · subst heq
      rw [if_neg hnm]
      have e1 : ((m0, d0).1, (m0, d0).2 + s.text.length) =
          (m0, d0 + s.text.length) := rfl
      rw [e1]
      have := calc_fold_diff_le rest m0 (d0 + s.text.length)
      omega
    · by_cases h : seg.segment_type = SegmentType.«match»
      · rw [if_pos h]
        have e1 : ((m0, d0).1 + seg.text.length, (m0, d0).2) =
            (m0 + seg.text.length, d0) := rfl
        rw [e1]
        exact ih _ d0 s hmem hnm
      · rw [if_neg h]
        have e1 : ((m0, d0).1, (m0, d0).2 + seg.text.length) =
            (m0, d0 + seg.text.length) := rfl
        rw [e1]
        exact ih m0 _ s hmem hnm

/-- The two window widths an opcode chain tiles. -/
lemma OpChain_sum (a b : List Char) :
    ∀ ops ci cj ce cje, OpChain a b ci cj ops ce cje →
      (ops.map (fun op => op.i2 - op.i1)).sum = ce - ci ∧
      (ops.map (fun op => op.j2 - op.j1)).sum = cje - cj := by
  intro ops
  induction ops with
  | nil =>
    intro ci cj ce cje h
    obtain ⟨h1, h2⟩ := h
    subst h1
    subst h2
    simp
  | cons op rest ih =>
    intro ci cj ce cje h
    obtain ⟨q1, q2, q3, q4, q5, q6⟩ := h
    have hle := OpChain_le a b rest op.i2 op.j2 ce cje q6
    obtain ⟨s1, s2⟩ := ih op.i2 op.j2 ce cje q6
    rw [List.map_cons, List.sum_cons, List.map_cons, List.sum_cons, s1, s2]
    constructor <;> omega

lemma pySlice_zero (l : List Char) (i j : Nat) (h : j - i = 0) :
    pySlice l i j = [] := by
  unfold pySlice
  rw [h]
  exact List.take_zero _

lemma takeWhile_all {p : Nat → Bool} :
    ∀ (l : List Nat), (∀ x ∈ l, p x = true) → l.takeWhile p = l := by
  intro l
  induction l with
  | nil => intro _; rfl
  | cons x xs ih =>
    intro h
    rw [List.takeWhile_cons, h x (List.mem_cons_self x xs)]
    rw [ih (fun y hy => h y (List.mem_cons_of_mem x hy))]
    rw [if_pos rfl]

/-- When every column `j` of a row yields `k ≤ bestsize`, the inner fold of
`find_longest_match` never replaces the best block and only touches the row
map at the processed columns. -/
lemma innerFold_no_update (old : Nat → Nat) (i : Nat) :
    ∀ (js : List Nat) (new : Nat → Nat) (bi bj bs : Nat),
      (∀ j ∈ js, (if j = 0 then 0 else old (j - 1)) + 1 ≤ bs) →
      (js.foldl (innerStep old i) (new, bi, bj, bs)).2 = (bi, bj, bs) ∧
      ∀ x, x ∉ js →
        (js.foldl (innerStep old i) (new, bi, bj, bs)).1 x = new x := by
  intro js
  induction js with
  | nil => intro new bi bj bs _; exact ⟨rfl, fun x _ => rfl⟩
  | cons j js' ih =>
    intro new bi bj bs hle
    rw [List.foldl_cons]
    have hkj := hle j (List.mem_cons_self j js')
    have hstep : innerStep old i (new, bi, bj, bs) j =
        ((fun x => if x = j then (if j = 0 then 0 else old (j - 1)) + 1
            else new x), bi, bj, bs) := by
      show (if bs < (if j = 0 then 0 else old (j - 1)) + 1 then
          ((fun x => if x = j then (if j = 0 then 0 else old (j - 1)) + 1
              else new x),
            i + 1 - ((if j = 0 then 0 else old (j - 1)) + 1),
            j + 1 - ((if j = 0 then 0 else old (j - 1)) + 1),
            (if j = 0 then 0 else old (j - 1)) + 1)
        else ((fun x => if x = j then (if j = 0 then 0 else old (j - 1)) + 1
            else new x), bi, bj, bs)) = _
      rw [if_neg (by omega)]
    rw [hstep]
    obtain ⟨h1, h2⟩ := ih
      (fun x => if x = j then (if j = 0 then 0 else old (j - 1)) + 1 else new x)
      bi bj bs (fun x hx => hle x (List.mem_cons_of_mem j hx))
    refine ⟨h1, ?_⟩
    intro x hx
    rw [h2 x (fun hmem => hx (List.mem_cons_of_mem j hmem))]
    rw [if_neg (fun hxj => hx (by rw [hxj]; exact List.mem_cons_self j js'))]

/-- The length of the longest run of non-popular characters of `s` ending
at index `i` (`0` when `s[i]` itself is popular).  Autojunk purges popular
characters from `b2j`, so a `j2len` run can never exceed the non-popular
run ending at its row and column. -/
def npr (s : List Char) : Nat → Nat
  | 0 => if isPopular s (s.getD 0 default) = true then 0 else 1
  | i + 1 =>
      if isPopular s (s.getD (i + 1) default) = true then 0
      else npr s i + 1

lemma getD_of_get? {s : List Char} {j : Nat} {c : Char}
    (h : s.get? j = some c) : s.getD j default = c := by
  rw [List.getD_eq_get?, h]
  rfl

lemma npr_le (s : List Char) : ∀ i, npr s i ≤ i + 1 := by
  intro i
  induction i with
  | zero =>
    rw [npr]
    split <;> omega
  | succ m ih =>
    rw [npr]
    split <;> omega

lemma npr_zero_pos (s : List Char) (c : Char)
    (hget : s.get? 0 = some c) (hpc : isPopular s c = false) :
    npr s 0 = 1 := by
  rw [npr, getD_of_get? hget, hpc]
  rw [if_neg (by decide)]

lemma npr_succ_pos (s : List Char) (j : Nat) (c : Char)
    (hget : s.get? (j + 1) = some c) (hpc : isPopular s c = false) :
    npr s (j + 1) = npr s j + 1 := by
  rw [npr, getD_of_get? hget, hpc]
  rw [if_neg (by decide)]

/-- A run of `k` non-popular characters ending at index `j` is no longer
than the maximal such run. -/
lemma npr_ge (s : List Char) :
    ∀ (j k : Nat), k ≤ j + 1 →
      (∀ t, t < k → ∃ c, s.get? (j - t) = some c ∧ isPopular s c = false) →
      k ≤ npr s j := by
  intro j
  induction j with
  | zero =>
    intro k hk hchars
    cases k with
    | zero => exact Nat.zero_le _
    | succ q =>
      have hq0 : q = 0 := by omega
      subst hq0
      obtain ⟨c, hget, hpc⟩ := hchars 0 (by omega)
      have h1 := npr_zero_pos s c hget hpc
      omega
  | succ j ih =>
    intro k hk hchars
    cases k with
    | zero => exact Nat.zero_le _
    | succ q =>
      obtain ⟨c, hget, hpc⟩ := hchars 0 (by omega)
      have he := npr_succ_pos s j c hget hpc
      have hrec : q ≤ npr s j := by
        apply ih q (by omega)
        intro t ht
        obtain ⟨c', hg, hp⟩ := hchars (t + 1) (by omega)
        refine ⟨c', ?_, hp⟩
        have e : j + 1 - (t + 1) = j - t := by omega
        rw [e] at hg
        exact hg
      omega

/-- On `(s, s)` each row of the dynamic program keeps the best block on the
diagonal.  Every inner value `k` at column `j` is a run of non-popular
characters ending both at row `i` and at column `j` (`kFacts`), so
`k ≤ npr j` and `k ≤ npr i`: columns left of the diagonal cannot beat a
best that already dominates every earlier `npr`, the diagonal column (when
`s[i]` is not popular it is always processed) raises the best to at least
`npr i` while keeping it diagonal, and columns right of it cannot beat
that.  The row map's diagonal entry ends at least `npr i`. -/
lemma rowStep_diagGen (s : List Char) (i : Nat) (old : Nat → Nat)
    (bi bj bs : Nat) (hi : i < s.length)
    (hold : OldInv s s 0 s.length 0 s.length i old)
    (hdmap : 1 ≤ i → npr s (i - 1) ≤ old (i - 1))
    (hbij : bi = bj)
    (hprev : ∀ j, j < i → npr s j ≤ bs) :
    ((rowStep s s 0 s.length (old, (bi, bj, bs)) i).2.1 =
      (rowStep s s 0 s.length (old, (bi, bj, bs)) i).2.2.1) ∧
    (∀ j, j < i + 1 →
      npr s j ≤ (rowStep s s 0 s.length (old, (bi, bj, bs)) i).2.2.2) ∧
    npr s i ≤ (rowStep s s 0 s.length (old, (bi, bj, bs)) i).1 i := by
  have hknpr : ∀ j ∈ rowIndices s s 0 s.length i,
      (if j = 0 then 0 else old (j - 1)) + 1 ≤ npr s j ∧
      (if j = 0 then 0 else old (j - 1)) + 1 ≤ npr s i := by
    intro j hj
    obtain ⟨k1, k2, k3, k4, k5⟩ := kFacts s s 0 s.length 0 s.length i j old
      (Nat.zero_le i) hi hold hj
    constructor
    · apply npr_ge s j _ (by omega)
      intro t ht
      obtain ⟨c, hc1, hc2, hc3⟩ := k5 t ht (le_refl s.length)
      exact ⟨c, hc2, hc3⟩
    · apply npr_ge s i _ (by omega)
      intro t ht
      obtain ⟨c, hc1, hc2, hc3⟩ := k5 t ht (le_refl s.length)
      exact ⟨c, hc1, hc3⟩
  have hrs : rowStep s s 0 s.length (old, (bi, bj, bs)) i =
      (rowIndices s s 0 s.length i).foldl (innerStep old i)
        ((fun _ => 0), (bi, bj, bs)) := rfl
  rw [hrs]
  by_cases hpopi : isPopular s (s.getD i default) = true
  · -- `s[i]` is popular: the row has no columns at all
    have hLnil : rowIndices s s 0 s.length i = [] := by
      unfold rowIndices
      unfold b2j
      rw [if_pos hpopi]
      rfl
    rw [hLnil]
    have hnpri : npr s i = 0 := by
      cases i with
      | zero => rw [npr, if_pos hpopi]
      | succ m => rw [npr, if_pos hpopi]
    refine ⟨hbij, ?_, ?_⟩
    · intro j hj
      show npr s j ≤ bs
      rcases Nat.lt_succ_iff_lt_or_eq.mp hj with h | h
      · exact hprev j h
      · subst h
        omega
    · show npr s i ≤ 0
      omega
  · have hpop' : isPopular s (s.getD i default) = false := by
      cases hb : isPopular s (s.getD i default) with
      | false => rfl
      | true => exact absurd hb hpopi
    have hL : rowIndices s s 0 s.length i = b2j s (s.getD i default) := by
      unfold rowIndices
      rw [takeWhile_all _ (fun x hx => by
        have := (mem_b2j hx).2.1
        simp only [decide_eq_true_eq]
        omega)]
      rw [List.filter_eq_self.mpr (fun x _ => by simp)]
    have hmem_i : i ∈ b2j s (s.getD i default) := by
      unfold b2j
      rw [hpop']
      simp only [Bool.false_eq_true, if_false, List.mem_filter, List.mem_range,
        decide_eq_true_eq]
      exact ⟨hi, get?_eq_getD hi⟩
    have hpw : (b2j s (s.getD i default)).Pairwise (· < ·) := by
      unfold b2j
      rw [hpop']
      simp only [Bool.false_eq_true, if_false]
      exact (List.pairwise_lt_range s.length).filter _
    obtain ⟨L1, L2, hsplit⟩ := List.append_of_mem hmem_i
    rw [hsplit] at hpw
    rw [List.pairwise_append] at hpw
    obtain ⟨hpw1, hpw2, hcross⟩ := hpw
    have hL1lt : ∀ j ∈ L1, j < i := fun j hj =>
      hcross j hj i (List.mem_cons_self i L2)
    have hL2gt : ∀ j ∈ L2, i < j := by
      intro j hj
      rw [List.pairwise_cons] at hpw2
      exact hpw2.1 j hj
    have hmemL : ∀ j, j ∈ L1 ∨ j = i ∨ j ∈ L2 →
        j ∈ rowIndices s s 0 s.length i := by
      intro j hj
      rw [hL, hsplit]
      rcases hj with h | h | h
      · exact List.mem_append.mpr (Or.inl h)
      · rw [h]
        exact List.mem_append.mpr (Or.inr (List.mem_cons_self i L2))
      · exact List.mem_append.mpr (Or.inr (List.mem_cons_of_mem i h))
    rw [hL, hsplit, List.foldl_append, List.foldl_cons]
    obtain ⟨p1best, p1map⟩ := innerFold_no_update old i L1 (fun _ => 0) bi bj bs
      (fun j hj => by
        have hb1 := (hknpr j (hmemL j (Or.inl hj))).1
        have hb2 := hprev j (hL1lt j hj)
        omega)
    set st1 := L1.foldl (innerStep old i) ((fun _ => 0), (bi, bj, bs)) with hst1
    have hst1e : st1 = (st1.1, (bi, bj, bs)) := by rw [← p1best]
    rw [hst1e]
    have hki : npr s i ≤ (if i = 0 then 0 else old (i - 1)) + 1 := by
      cases i with
      | zero =>
        show npr s 0 ≤ 0 + 1
        have h1 := npr_le s 0
        omega
      | succ m =>
        show npr s (m + 1) ≤ old m + 1
        have he : npr s (m + 1) = npr s m + 1 := by
          rw [npr, hpop']
          rw [if_neg (by decide)]
        have h2 : npr s m ≤ old m := hdmap (by omega)
        omega
    by_cases hwin : bs < (if i = 0 then 0 else old (i - 1)) + 1
    · have hstep : innerStep old i (st1.1, bi, bj, bs) i =
          ((fun x => if x = i then (if i = 0 then 0 else old (i - 1)) + 1
              else st1.1 x),
            i + 1 - ((if i = 0 then 0 else old (i - 1)) + 1),
            i + 1 - ((if i = 0 then 0 else old (i - 1)) + 1),
            (if i = 0 then 0 else old (i - 1)) + 1) := by
        show (if bs < (if i = 0 then 0 else old (i - 1)) + 1 then
            ((fun x => if x = i then (if i = 0 then 0 else old (i - 1)) + 1
                else st1.1 x),
              i + 1 - ((if i = 0 then 0 else old (i - 1)) + 1),
              i + 1 - ((if i = 0 then 0 else old (i - 1)) + 1),
              (if i = 0 then 0 else old (i - 1)) + 1)
          else ((fun x => if x = i then (if i = 0 then 0 else old (i - 1)) + 1
              else st1.1 x), bi, bj, bs)) = _
        rw [if_pos hwin]
      rw [hstep]
      obtain ⟨p2best, p2map⟩ := innerFold_no_update old i L2
        (fun x => if x = i then (if i = 0 then 0 else old (i - 1)) + 1
          else st1.1 x)
        (i + 1 - ((if i = 0 then 0 else old (i - 1)) + 1))
        (i + 1 - ((if i = 0 then 0 else old (i - 1)) + 1))
        ((if i = 0 then 0 else old (i - 1)) + 1)
        (fun j hj => by
          have hb2 := (hknpr j (hmemL j (Or.inr (Or.inr hj)))).2
          omega)
      rw [p2best]
      refine ⟨rfl, ?_, ?_⟩
      · intro j hj
        show npr s j ≤ (if i = 0 then 0 else old (i - 1)) + 1
        rcases Nat.lt_succ_iff_lt_or_eq.mp hj with h | h
        · have := hprev j h
          omega
        · subst h
          exact hki
      · rw [p2map i (fun hmem => by have := hL2gt i hmem; omega)]
        show npr s i ≤ (if i = i then (if i = 0 then 0 else old (i - 1)) + 1
          else st1.1 i)
        rw [if_pos rfl]
        exact hki
    · have hstep : innerStep old i (st1.1, bi, bj, bs) i =
          ((fun x => if x = i then (if i = 0 then 0 else old (i - 1)) + 1
              else st1.1 x), bi, bj, bs) := by
        show (if bs < (if i = 0 then 0 else old (i - 1)) + 1 then
            ((fun x => if x = i then (if i = 0 then 0 else old (i - 1)) + 1
                else st1.1 x),
              i + 1 - ((if i = 0 then 0 else old (i - 1)) + 1),
              i + 1 - ((if i = 0 then 0 else old (i - 1)) + 1),
              (if i = 0 then 0 else old (i - 1)) + 1)
          else ((fun x => if x = i then (if i = 0 then 0 else old (i - 1)) + 1
              else st1.1 x), bi, bj, bs)) = _
        rw [if_neg hwin]
      rw [hstep]
      obtain ⟨p2best, p2map⟩ := innerFold_no_update old i L2
        (fun x => if x = i then (if i = 0 then 0 else old (i - 1)) + 1
          else st1.1 x) bi bj bs
        (fun j hj => by
          have hb2 := (hknpr j (hmemL j (Or.inr (Or.inr hj)))).2
          omega)
      rw [p2best]
      refine ⟨hbij, ?_, ?_⟩
      · intro j hj
        show npr s j ≤ bs
        rcases Nat.lt_succ_iff_lt_or_eq.mp hj with h | h
        · exact hprev j h
        · subst h
          omega
      · rw [p2map i (fun hmem => by have := hL2gt i hmem; omega)]
        show npr s i ≤ (if i = i then (if i = 0 then 0 else old (i - 1)) + 1
          else st1.1 i)
        rw [if_pos rfl]
        omega

/-- On `(s, s)` the dynamic program's best block stays on the diagonal
(`besti = bestj`), its size dominates every non-popular run seen so far,
and the row map's diagonal entry dominates the current run. -/
lemma dpDiagGen (s : List Char) :
    ∀ m, m ≤ s.length →
      (((List.range' 0 m).foldl (rowStep s s 0 s.length)
          ((fun _ => 0), (0, 0, 0))).2.1 =
        ((List.range' 0 m).foldl (rowStep s s 0 s.length)
          ((fun _ => 0), (0, 0, 0))).2.2.1) ∧
      (∀ j, j < m → npr s j ≤
        ((List.range' 0 m).foldl (rowStep s s 0 s.length)
          ((fun _ => 0), (0, 0, 0))).2.2.2) ∧
      (1 ≤ m → npr s (m - 1) ≤
        ((List.range' 0 m).foldl (rowStep s s 0 s.length)
          ((fun _ => 0), (0, 0, 0))).1 (m - 1)) := by
  intro m
  induction m with
  | zero =>
    intro _
    refine ⟨rfl, ?_, ?_⟩
    · intro j hj
      omega
    · intro h
      omega
  | succ m ih =>
    intro hm
    obtain ⟨hbij, hprev, hdmap⟩ := ih (by omega)
    have hOld : OldInv s s 0 s.length 0 s.length m
        ((List.range' 0 m).foldl (rowStep s s 0 s.length)
          ((fun _ => 0), (0, 0, 0))).1 := by
      have := (dpPhase_fold s s 0 s.length 0 s.length m (by omega)).1
      simpa using this
    rw [List.range'_concat, List.foldl_append, List.foldl_cons, List.foldl_nil,
      one_mul, Nat.zero_add]
    set prev := (List.range' 0 m).foldl (rowStep s s 0 s.length)
      ((fun _ => 0), (0, 0, 0)) with hprevdef
    have hrow := rowStep_diagGen s m prev.1 prev.2.1 prev.2.2.1 prev.2.2.2
      (by omega) hOld hdmap hbij hprev
    exact ⟨hrow.1, hrow.2.1, fun _ => hrow.2.2⟩

/-- On the diagonal of `(s, s)` the left extension loop always reaches the
margin: its character guard compares a position with itself. -/
lemma extendLeft_diag (s : List Char) :
    ∀ bi bs, extendLeft s s 0 0 bi bi bs = (0, 0, bs + bi) := by
  intro bi
  induction bi with
  | zero => intro bs; rfl
  | succ b ih =>
    intro bs
    rw [extendLeft]
    rw [if_pos ⟨by omega, by omega, rfl⟩]
    show extendLeft s s 0 0 b b (bs + 1) = _
    rw [ih (bs + 1)]
    have e : bs + 1 + b = bs + (b + 1) := by omega
    rw [e]

/-- On the diagonal of `(s, s)` the right extension loop always reaches the
window end. -/
lemma extendRightF_diag (s : List Char) :
    ∀ fuel bs, bs + fuel = s.length →
      extendRightF s s s.length s.length fuel 0 0 bs = (0, 0, s.length) := by
  intro fuel
  induction fuel with
  | zero =>
    intro bs h
    show (0, 0, bs) = ((0 : Nat), (0 : Nat), s.length)
    rw [show bs = s.length by omega]
  | succ f ih =>
    intro bs h
    rw [extendRightF]
    rw [if_pos ⟨by omega, by omega, rfl⟩]
    exact ih (bs + 1) (by omega)

/-- `find_longest_match` of any text against itself over the full windows
returns the whole diagonal — popular (autojunk-purged) characters included,
because the two live extension loops compare each position with itself and
their junk guard is vacuous with `isjunk=None`. -/
lemma flm_self (s : List Char) :
    find_longest_match s s 0 s.length 0 s.length = (0, 0, s.length) := by
  obtain ⟨hdg, hdn, hdm⟩ := dpDiagGen s s.length (le_refl _)
  have hdiag : (dpPhase s s 0 s.length 0 s.length).2.1 =
      (dpPhase s s 0 s.length 0 s.length).2.2.1 := by
    unfold dpPhase
    rw [Nat.sub_zero]
    exact hdg
  have hle : (dpPhase s s 0 s.length 0 s.length).2.1 +
      (dpPhase s s 0 s.length 0 s.length).2.2.2 ≤ s.length := by
    rcases dpPhase_BProp s s 0 s.length 0 s.length with
      ⟨h1, h2, h3⟩ | ⟨h0, h1, h2, h3, h4, h5⟩
    · omega
    · exact h2
  unfold find_longest_match
  show extendRight s s s.length s.length
    (extendLeft s s 0 0 (dpPhase s s 0 s.length 0 s.length).2.1
      (dpPhase s s 0 s.length 0 s.length).2.2.1
      (dpPhase s s 0 s.length 0 s.length).2.2.2).1
    (extendLeft s s 0 0 (dpPhase s s 0 s.length 0 s.length).2.1
      (dpPhase s s 0 s.length 0 s.length).2.2.1
      (dpPhase s s 0 s.length 0 s.length).2.2.2).2.1
    (extendLeft s s 0 0 (dpPhase s s 0 s.length 0 s.length).2.1
      (dpPhase s s 0 s.length 0 s.length).2.2.1
      (dpPhase s s 0 s.length 0 s.length).2.2.2).2.2 = (0, 0, s.length)
  rw [← hdiag]
  rw [extendLeft_diag]
  show extendRight s s s.length s.length 0 0
    ((dpPhase s s 0 s.length 0 s.length).2.2.2 +
      (dpPhase s s 0 s.length 0 s.length).2.1) = (0, 0, s.length)
  unfold extendRight
  exact extendRightF_diag s
    (s.length - (0 + ((dpPhase s s 0 s.length 0 s.length).2.2.2 +
      (dpPhase s s 0 s.length 0 s.length).2.1)))
    ((dpPhase s s 0 s.length 0 s.length).2.2.2 +
      (dpPhase s s 0 s.length 0 s.length).2.1)
    (by omega)

/-- The matching-block recursion on a non-empty `(s, s)` finds just the
whole diagonal. -/
lemma mbr_self (s : List Char) (h0 : s ≠ []) :
    matchingBlocksRec s s 0 s.length 0 s.length = [(0, 0, s.length)] := by
  have hflm := flm_self s
  have hne0 : s.length ≠ 0 := fun hc => h0 (List.length_eq_zero.mp hc)
  unfold matchingBlocksRec
  have hfuel : s.length - 0 + 1 = s.length + 1 := by omega
  rw [hfuel]
  rw [matchingBlocksRecF]
  rw [hflm]
  rw [if_neg (show ¬((0, 0, s.length) : Nat × Nat × Nat).2.2 = 0 from hne0)]
  rw [if_neg (show ¬(0 < ((0, 0, s.length) : Nat × Nat × Nat).1 ∧
    0 < ((0, 0, s.length) : Nat × Nat × Nat).2.1) from fun hc =>
      Nat.lt_irrefl 0 hc.1)]
  rw [if_neg (show ¬(((0, 0, s.length) : Nat × Nat × Nat).1 +
      ((0, 0, s.length) : Nat × Nat × Nat).2.2 < s.length ∧
      ((0, 0, s.length) : Nat × Nat × Nat).2.1 +
      ((0, 0, s.length) : Nat × Nat × Nat).2.2 < s.length) from fun hc => by
    have hx : 0 + s.length < s.length := hc.1
    omega)]
  rw [List.nil_append, List.append_nil]

/-- `get_matching_blocks` of a non-empty text against itself: the whole
diagonal plus the sentinel. -/
lemma gmb_self (s : List Char) (h0 : s ≠ []) :
    get_matching_blocks s s = [(0, 0, s.length), (s.length, s.length, 0)] := by
  have hne0 : s.length ≠ 0 := fun hc => h0 (List.length_eq_zero.mp hc)
  unfold get_matching_blocks
  rw [nonAdjacent_eq, mbr_self s h0]
  have hfold : ([((0 : Nat), (0 : Nat), s.length)]).foldl naStep ([], 0, 0, 0) =
      ([], 0, 0, 0 + s.length) := by
    rw [List.foldl_cons, List.foldl_nil]
    show (if (0 : Nat) + 0 = 0 ∧ (0 : Nat) + 0 = 0 then
        (([] : List (Nat × Nat × Nat)), (0 : Nat), (0 : Nat), 0 + s.length)
      else ((if (0 : Nat) ≠ 0 then ([((0 : Nat), (0 : Nat), (0 : Nat))] :
          List (Nat × Nat × Nat)) else []),
        (0 : Nat), (0 : Nat), s.length)) = _
    rw [if_pos ⟨rfl, rfl⟩]
  rw [hfold]
  rw [Nat.zero_add]
  rw [if_pos (show (((([] : List (Nat × Nat × Nat)), (0 : Nat), (0 : Nat),
    s.length)).2.2.2 ≠ 0) from hne0)]
  rw [List.nil_append]
  rfl

/-- `get_opcodes` of a non-empty text against itself is one `equal` opcode
spanning it. -/
lemma get_opcodes_self (s : List Char) (h0 : s ≠ []) :
    get_opcodes s s = [⟨Tag.equal, 0, s.length, 0, s.length⟩] := by
  have hne0 : s.length ≠ 0 := fun hc => h0 (List.length_eq_zero.mp hc)
  unfold get_opcodes
  rw [gmb_self s h0]
  rw [List.foldl_cons, List.foldl_cons, List.foldl_nil]
  have e1 : opStep (0, 0, ([] : List Opcode)) (0, 0, s.length) =
      (0 + s.length, 0 + s.length,
        if s.length ≠ 0 then
          [⟨Tag.equal, 0, 0 + s.length, 0, 0 + s.length⟩]
        else []) := by
    show ((0 : Nat) + s.length, (0 : Nat) + s.length,
      ([] : List Opcode) ++ [] ++
        (if s.length ≠ 0 then
          [⟨Tag.equal, 0, 0 + s.length, 0, 0 + s.length⟩]
        else [])) = _
    rw [List.nil_append, List.nil_append]
  rw [e1, if_pos hne0]
  simp only [Nat.zero_add]
  have e2 : opStep (s.length, s.length,
      [⟨Tag.equal, 0, s.length, 0, s.length⟩]) (s.length, s.length, 0) =
      (s.length, s.length, [⟨Tag.equal, 0, s.length, 0, s.length⟩]) := by
    show (s.length, s.length,
      ([⟨Tag.equal, 0, s.length, 0, s.length⟩] : List Opcode) ++
        (if s.length < s.length ∧ s.length < s.length then
          [⟨Tag.replace, s.length, s.length, s.length, s.length⟩]
        else if s.length < s.length then
          [⟨Tag.delete, s.length, s.length, s.length, s.length⟩]
        else if s.length < s.length then
          [⟨Tag.insert, s.length, s.length, s.length, s.length⟩]
        else []) ++ []) = _
    rw [if_neg (show ¬(s.length < s.length ∧ s.length < s.length) by omega)]
    rw [if_neg (show ¬(s.length < s.length) by omega)]
    rw [if_neg (show ¬(s.length < s.length) by omega)]
    rw [List.append_nil, List.append_nil]
  rw [e2]

/-- Aligning a non-empty text against itself yields one full-width match
segment. -/
lemma align_self (s : List Char) (n : String) (h0 : s ≠ []) :
    align_texts s s n = [⟨s, SegmentType.«match», 0, s.length,
      mkProvData n s s⟩] := by
  rw [align_texts_eq, get_opcodes_self s h0]
  show [segOf s s n 0 ⟨Tag.equal, 0, s.length, 0, s.length⟩] = _
  have hs : segOf s s n 0 ⟨Tag.equal, 0, s.length, 0, s.length⟩ =
      ⟨s, SegmentType.«match», 0, s.length, mkProvData n s s⟩ := by
    show (⟨pySlice s 0 s.length, SegmentType.«match», 0,
      0 + (pySlice s 0 s.length).length,
      mkProvData n (pySlice s 0 s.length) (pySlice s 0 s.length)⟩ :
        DiffSegment) = _
    rw [pySlice_self, Nat.zero_add]
  rw [hs]

set_option maxHeartbeats 1600000 in
/-- C2 counterexample: aligning reference `"ab"` against candidate `"aXb"`
gives `accuracy_percent = 100` although the texts differ (the inserted `X`
consumes no reference length), and two equal empty texts give accuracy `0`,
not `100`.  So `accuracy_percent == 100.0` is NOT equivalent to textual
equality. -/
theorem C2_counterexample :
    (calculate_accuracy (align_texts ['a','b'] ['a','X','b'] "E")
        (['a','b'] : List Char).length).2.2 = 100 ∧
    (['a','X','b'] : List Char) ≠ ['a','b'] ∧
    (calculate_accuracy (align_texts [] [] "E")
        (([] : List Char)).length).2.2 ≠ 100 := by
  refine ⟨?_, by decide, ?_⟩
  · rw [calculate_accuracy_acc]
    rw [if_neg (by decide : ¬((['a','b'] : List Char).length = 0))]
    have h1 : (calculate_accuracy (align_texts ['a','b'] ['a','X','b'] "E")
        (['a','b'] : List Char).length).1 = 2 := by decide
    rw [h1]
    norm_num
  · rw [calculate_accuracy_acc]
    rw [if_pos (by decide : (([] : List Char)).length = 0)]
    norm_num

seal find_longest_match matchingBlocksRecF in
/-- C2 (amended): for a non-empty reference and a candidate no longer than
the reference, `accuracy_percent = 100` holds iff the candidate equals the
reference (a candidate longer than the reference can reach 100 via
insertions, and an empty reference is guarded to accuracy `0`; autojunk is
no obstacle, since the extension loops fully self-match any text). -/
theorem C2_amended (reference comparison : List Char) (provider_name : String)
    (h0 : reference ≠ [])
    (hlen : comparison.length ≤ reference.length) :
    (calculate_accuracy (align_texts reference comparison provider_name)
      reference.length).2.2 = 100 ↔ comparison = reference := by
  have hne0 : reference.length ≠ 0 := fun hc => h0 (List.length_eq_zero.mp hc)
  have hql : ((reference.length : Nat) : ℚ) ≠ 0 := Nat.cast_ne_zero.mpr hne0
  constructor
  · intro hacc
    rw [calculate_accuracy_acc, if_neg hne0] at hacc
    have hm : (calculate_accuracy
        (align_texts reference comparison provider_name)
        reference.length).1 = reference.length := by
      have h1 : ((calculate_accuracy
          (align_texts reference comparison provider_name)
          reference.length).1 : ℚ) = (reference.length : ℚ) := by
        field_simp at hacc
        linarith
      exact_mod_cast h1
    have hmd := align_match_diff reference comparison provider_name
    have hd : (calculate_accuracy
        (align_texts reference comparison provider_name)
        reference.length).2.1 = 0 := by omega
    have hzero : ∀ seg ∈ align_texts reference comparison provider_name,
        seg.segment_type ≠ SegmentType.«match» → seg.text.length = 0 := by
      intro seg hs hnm
      have hle := calc_nonmatch_le
        (align_texts reference comparison provider_name) 0 0 seg hs hnm
      have he : (calculate_accuracy
          (align_texts reference comparison provider_name)
          reference.length).2.1 =
        ((align_texts reference comparison provider_name).foldl
          (fun (md : Nat × Nat) seg =>
            if seg.segment_type = SegmentType.«match» then
              (md.1 + seg.text.length, md.2)
            else (md.1, md.2 + seg.text.length)) (0, 0)).2 := rfl
      omega
    have hchain := get_opcodes_chain reference comparison
    have hfacts := OpChain_mem_facts reference comparison
      (get_opcodes reference comparison) 0 0 reference.length
      comparison.length hchain
    have hnord : ∀ op ∈ get_opcodes reference comparison,
        op.tag = Tag.equal ∨ op.tag = Tag.insert := by
      intro op hop
      obtain ⟨hok, h12, h34, hce, hcje⟩ := hfacts op hop
      obtain ⟨k, hk⟩ := List.mem_iff_get?.mp hop
      have hklt : k < (get_opcodes reference comparison).length := by
        rcases List.get?_eq_some.mp hk with ⟨h, _⟩
        exact h
      have hslt : k < (segsOf reference comparison provider_name 0
          (get_opcodes reference comparison)).length := by
        rw [segsOf_length]
        exact hklt
      have hseg := List.get?_eq_get hslt
      obtain ⟨q, hq, hok2, hq12, hq34, hqce, hqcje⟩ := segsOf_corr reference
        comparison provider_name (get_opcodes reference comparison) 0 0
        reference.length comparison.length 0 k op _ hchain hk hseg
      have hmem : (segsOf reference comparison provider_name 0
          (get_opcodes reference comparison)).get ⟨k, hslt⟩ ∈
          align_texts reference comparison provider_name := by
        rw [align_texts_eq]
        exact List.get_mem _ k hslt
      have hlen0 : ((segsOf reference comparison provider_name 0
          (get_opcodes reference comparison)).get ⟨k, hslt⟩).segment_type ≠
            SegmentType.«match» →
          ((segsOf reference comparison provider_name 0
            (get_opcodes reference comparison)).get ⟨k, hslt⟩).text.length = 0 :=
        hzero _ hmem
      rw [hq] at hlen0
      cases op with
      | mk tg x1 x2 y1 y2 =>
        cases tg with
        | equal => exact Or.inl rfl
        | replace =>
          exfalso
          obtain ⟨ho1, ho2⟩ := hok2
          have ho1' : x1 < x2 := ho1
          have hl0 := hlen0 (fun hc => SegmentType.noConfusion hc)
          have htext : (segOf reference comparison provider_name q
              ⟨Tag.replace, x1, x2, y1, y2⟩).text =
              pySlice reference x1 x2 := rfl
          rw [htext] at hl0
          have hpl := pySlice_length reference x1 x2 hqce hq12
          omega
        | delete =>
          exfalso
          obtain ⟨ho1, ho2⟩ := hok2
          have ho1' : x1 < x2 := ho1
          have hl0 := hlen0 (fun hc => SegmentType.noConfusion hc)
          have htext : (segOf reference comparison provider_name q
              ⟨Tag.delete, x1, x2, y1, y2⟩).text =
              pySlice reference x1 x2 := rfl
          rw [htext] at hl0
          have hpl := pySlice_length reference x1 x2 hqce hq12
          omega
        | insert => exact Or.inr rfl
    obtain ⟨hsa, hsb⟩ := OpChain_sum reference comparison
      (get_opcodes reference comparison) 0 0 reference.length
      comparison.length hchain
    rw [Nat.sub_zero] at hsa hsb
    have hpt : ∀ op ∈ get_opcodes reference comparison,
        op.i2 - op.i1 ≤ op.j2 - op.j1 := by
      intro op hop
      obtain ⟨hok, h12, h34, hce, hcje⟩ := hfacts op hop
      rcases hnord op hop with htag | htag
      · cases op with
        | mk tg x1 x2 y1 y2 =>
          subst htag
          obtain ⟨_, hw, _⟩ := hok
          omega
      · cases op with
        | mk tg x1 x2 y1 y2 =>
          subst htag
          obtain ⟨hi, _⟩ := hok
          omega
    have hpt_eq : ∀ op ∈ get_opcodes reference comparison,
        op.i2 - op.i1 = op.j2 - op.j1 := by
      intro op hop
      by_contra hne
      have hlt : op.i2 - op.i1 < op.j2 - op.j1 :=
        lt_of_le_of_ne (hpt op hop) hne
      have hstrict := List.sum_lt_sum (fun op => op.i2 - op.i1)
        (fun op => op.j2 - op.j1) hpt ⟨op, hop, hlt⟩
      omega
    have hslices : ∀ op ∈ get_opcodes reference comparison,
        pySlice comparison op.j1 op.j2 = pySlice reference op.i1 op.i2 := by
      intro op hop
      obtain ⟨hok, h12, h34, hce, hcje⟩ := hfacts op hop
      have hw := hpt_eq op hop
      rcases hnord op hop with htag | htag
      · cases op with
        | mk tg x1 x2 y1 y2 =>
          subst htag
          obtain ⟨ho1, ho2, ho3⟩ := hok
          exact (pySlice_congr reference comparison x1 x2 y1 y2 hce hcje
            h12 h34 ho2 ho3).symm
      · cases op with
        | mk tg x1 x2 y1 y2 =>
          subst htag
          obtain ⟨hi, _⟩ := hok
          rw [pySlice_zero comparison y1 y2 (by omega),
            pySlice_zero reference x1 x2 (by omega)]
    have hmap : (get_opcodes reference comparison).map
        (fun op => pySlice comparison op.j1 op.j2) =
        (get_opcodes reference comparison).map
        (fun op => pySlice reference op.i1 op.i2) :=
      List.map_congr_left hslices
    have hb := OpChain_join_b reference comparison
      (get_opcodes reference comparison) 0 0 reference.length
      comparison.length hchain
    have ha := OpChain_join_a reference comparison
      (get_opcodes reference comparison) 0 0 reference.length
      comparison.length hchain
    rw [pySlice_self] at ha hb
    rw [← hb, hmap, ha]
  · intro hc
    rw [hc]
    rw [align_self reference provider_name h0]
    rw [calculate_accuracy_acc, if_neg hne0]
    have hm : (calculate_accuracy [⟨reference, SegmentType.«match», 0,
        reference.length, mkProvData provider_name reference reference⟩]
        reference.length).1 = reference.length := by
      show 0 + reference.length = reference.length
      omega
    rw [hm]
    rw [div_self hql, one_mul]

/-- C2 witness: the amended equivalence at a concrete equal pair. -/
theorem C2_amended_witness :
    (calculate_accuracy (align_texts ['a','b'] ['a','b'] "E")
      (['a','b'] : List Char).length).2.2 = 100 ↔
      (['a','b'] : List Char) = ['a','b'] :=
  C2_amended ['a','b'] ['a','b'] "E" (by decide) (by decide)

end OCRSpec
